import Mathlib

/-!
# BloomFilter: a shallow embedding of `BloomCreate.go`

The Go package keeps one mutable `Filter` behind a pointer.  Here every
method is a function from the filter state before the call to the state
after it (explicit state passing).  Machine integers are natural numbers
with an explicit `% 2 ^ 64` (or `% 256` for a byte) wherever the Go
arithmetic can wrap.  A run-time panic of the Go program (slice index out
of range, nil mutex, negative `make` length) is an `Except.error`.

Two things the package imports are not part of the repository and are
taken as parameters:

* `sum128`, the 128-bit murmur3 digest of a byte stream
  (`github.com/spaolacci/murmur3`);
* `ceilLog2`, the value of `uint64(math.Ceil(math.Log2(float64(size))))`
  (Go's `math` package, floating point); `mathCeilLog2` is that value as the
  spec gives it, the exact ceiling of the base-2 logarithm.
-/

namespace BloomFilter

/-- Run-time panics the Go code can raise. -/
inductive Panic where
  | indexOutOfRange
  | nilDereference
  | makesliceLen
  deriving DecidableEq, Repr

/-- The `Filter` struct.  `lock` records whether the `*sync.RWMutex` is
non-nil; `keys` holds the bytes of the storage slice. -/
structure Filter where
  lock : Bool
  concurrent : Bool
  m : Nat
  n : Nat
  log2m : Nat
  k : Nat
  keys : List Nat
  deriving DecidableEq, Repr

/-- `mod7 = 1<<3 - 1`. -/
def mod7 : Nat := 1 <<< 3 - 1

/-- `bitPerByte = 8`. -/
def bitPerByte : Nat := 8

/-- A Go `int` (64 bit) read from its two's-complement bit pattern. -/
def toInt64 (x : Nat) : Int :=
  if x % 2 ^ 64 < 2 ^ 63 then (x % 2 ^ 64 : Nat) else (x % 2 ^ 64 : Nat) - 2 ^ 64

/-- The Go runtime's `maxAlloc`, the largest size `make` accepts: `1 << 48` on
64-bit platforms (48 heap address bits).  It is a constant of the runtime,
not of the repository. -/
def maxAlloc : Nat := 2 ^ 48

/-- `New(size, k, race)`.  `1 << log2` is a `uint64` shift for the field `m`
and an `int` shift for the length given to `make`, which panics
(`makeslice: len out of range`) when that length is negative or above
`maxAlloc`.  Running out of memory below that limit is not modelled. -/
def New (ceilLog2 : Nat → Nat) (size k : Nat) (race : Bool) : Except Panic Filter :=
  let log2 := ceilLog2 size
  let len := toInt64 (1 <<< log2)
  if len < 0 ∨ (maxAlloc : Int) < len then
    .error .makesliceLen
  else
    .ok { m := (1 <<< log2) % 2 ^ 64
          log2m := log2
          k := k
          keys := List.replicate len.toNat 0
          concurrent := race
          lock := race
          n := 0 }

/-- Modelled from the spec: `uint64(math.Ceil(math.Log2(float64(size))))` is
computed by Go's `math` package, which is not in the repository; the spec
(section 4.4) gives `log2BitLength = ceil(log2(requestedCapacity))`. -/
def mathCeilLog2 (size : Nat) : Nat :=
  Nat.clog 2 size

/-- `baseHash(data)`: the digest of `data`, then the digest of `data`
followed by the byte `1` (the hasher keeps its state between the two
`Sum128` calls). -/
def baseHash (sum128 : List Nat → Nat × Nat) (data : List Nat) : List Nat :=
  let a := [1]
  let v12 := sum128 data
  let v34 := sum128 (data ++ a)
  [v12.1, v12.2, v34.1, v34.2]

/-- Slice indexing `h[i]`, which panics out of range. -/
def index (h : List Nat) (i : Nat) : Except Panic Nat :=
  match h[i]? with
  | some v => .ok v
  | none => .error .indexOutOfRange

/-- The method `(f *Filter) location(loc)`: byte slot and bit offset. -/
def Filter.location (f : Filter) (loc : Nat) : Nat × Nat :=
  let slot := (loc / bitPerByte) &&& ((f.m + 2 ^ 64 - 1) % 2 ^ 64)
  let mod := loc &&& mod7
  (slot, mod)

/-- The function `location(h, i)`: the `i`-th probe position, in wrapping
64-bit arithmetic. -/
def location (h : List Nat) (i : Nat) : Except Panic Nat := do
  let a ← index h (i &&& 1)
  let b ← index h (2 + (((i + (i &&& 1)) % 2 ^ 64) &&& 3) / 2)
  pure ((a + (i * b) % 2 ^ 64) % 2 ^ 64)

/-- The guard `if f.concurrent { f.lock.Lock() ... }` (also `RLock`): a nil
mutex panics, otherwise the lock is taken and released on return. -/
def Filter.acquire (f : Filter) : Except Panic Unit :=
  if f.concurrent && !f.lock then .error .nilDereference else .ok ()

/-- `f.keys[slot] |= 1 << mod` on a byte slice. -/
def setBit (keys : List Nat) (slot mod : Nat) : Except Panic (List Nat) :=
  match keys[slot]? with
  | some b => .ok (keys.set slot ((b ||| (1 <<< mod) % 256) % 256))
  | none => .error .indexOutOfRange

/-- One iteration of the probe loop of `Add` and `AddBatch`. -/
def Filter.probeStep (h : List Nat) (f : Filter) (i : Nat) : Except Panic Filter := do
  let loc ← BloomFilter.location h i
  let (slot, mod) := f.location loc
  let keys ← setBit f.keys slot mod
  pure { f with keys := keys }

/-- The loop `for i := uint64(0); i < f.k; i++ { ... }` of `Add` and
`AddBatch`. -/
def Filter.setProbes (h : List Nat) (f : Filter) : Except Panic Filter :=
  (List.range f.k).foldlM (Filter.probeStep h) f

/-- `f.Add(data)`. -/
def Filter.Add (sum128 : List Nat → Nat × Nat) (f : Filter) (data : List Nat) :
    Except Panic Filter := do
  f.acquire
  let h := baseHash sum128 data
  let f ← f.setProbes h
  pure { f with n := (f.n + 1) % 2 ^ 64 }

/-- The loop of `Test` from probe index `i` on: `false` at the first probe
whose bit is clear, `true` when none is. -/
def Filter.testProbes (h : List Nat) (f : Filter) : List Nat → Except Panic Bool
  | [] => .ok true
  | i :: rest => do
    let loc ← BloomFilter.location h i
    let (slot, mod) := f.location loc
    let b ← index f.keys slot
    if (b &&& (1 <<< mod) % 256) = 0 then
      pure false
    else
      Filter.testProbes h f rest

/-- `f.Test(data)`: the answer and the filter state after the call. -/
def Filter.Test (sum128 : List Nat → Nat × Nat) (f : Filter) (data : List Nat) :
    Except Panic (Bool × Filter) := do
  f.acquire
  let h := baseHash sum128 data
  let r ← f.testProbes h (List.range f.k)
  pure (r, f)

/-- The body of the outer loop of `AddBatch` for one element. -/
def Filter.batchStep (sum128 : List Nat → Nat × Nat) (f : Filter) (data : List Nat) :
    Except Panic Filter := do
  let h := baseHash sum128 data
  let f ← f.setProbes h
  pure { f with n := (f.n + 1) % 2 ^ 64 }

/-- `f.AddBatch(dataarr)`: the guard is taken once, then the loop runs. -/
def Filter.AddBatch (sum128 : List Nat → Nat × Nat) (f : Filter) (dataarr : List (List Nat)) :
    Except Panic Filter := do
  f.acquire
  dataarr.foldlM (Filter.batchStep sum128) f

/-- `f.Reset()`. -/
def Filter.Reset (f : Filter) : Except Panic Filter := do
  f.acquire
  pure { f with keys := f.keys.map (fun b => b &&& 0), n := 0 }

/-- The loop `for i := 0; i < len(f.keys); i++ { f.keys[i] |= g.keys[i] }`. -/
def orKeys : List Nat → List Nat → Except Panic (List Nat)
  | [], _ => .ok []
  | _ :: _, [] => .error .indexOutOfRange
  | a :: as, b :: bs => do
    let rest ← orKeys as bs
    pure (((a ||| b) % 256) :: rest)

/-- What `fmt.Errorf("?'s don't match: %d != %d", a, b)` prints. -/
def errorfDontMatch (which : String) (a b : Nat) : String :=
  which ++ "\x27s don\x27t match: " ++ toString a ++ " != " ++ toString b

/-- Result of `f.MergeInPlace(g)`: the returned error (`none` is `nil`) and
both filters after the call.  The code only reads `g`; the two filters are
taken to be distinct objects. -/
structure MergeResult where
  err : Option String
  f : Filter
  g : Filter
  deriving DecidableEq, Repr

/-- `f.MergeInPlace(g)`. -/
def Filter.MergeInPlace (f g : Filter) : Except Panic MergeResult :=
  if f.m ≠ g.m then
    .ok { err := some (errorfDontMatch "m" f.m g.m), f := f, g := g }
  else if f.k ≠ g.k then
    .ok { err := some (errorfDontMatch "k" f.m g.m), f := f, g := g }
  else if g.concurrent then
    .ok { err := some "merging concurrent filter is not support", f := f, g := g }
  else do
    f.acquire
    let keys ← orKeys f.keys g.keys
    pure { err := none, f := { f with keys := keys }, g := g }

/-- `f.Cap()`. -/
def Filter.Cap (f : Filter) : Except Panic (Nat × Filter) := do
  f.acquire
  pure (f.m, f)

/-- `f.Size()`. -/
def Filter.Size (f : Filter) : Except Panic (Nat × Filter) := do
  f.acquire
  pure (f.n, f)

/-- The `float64` operations `FalsePositiveRate` uses, over a carrier `F`. -/
structure Float64Ops (F : Type) where
  ofUint64 : Nat → F
  neg : F → F
  div : F → F → F
  sub : F → F → F
  pow : F → F → F
  one : F
  e : F

/-- `f.FalsePositiveRate()`; the product `f.k*f.n` is a `uint64` product. -/
def Filter.FalsePositiveRate {F : Type} (fl : Float64Ops F) (f : Filter) :
    Except Panic (F × Filter) := do
  f.acquire
  let expoInner := fl.div (fl.neg (fl.ofUint64 ((f.k * f.n) % 2 ^ 64))) (fl.ofUint64 f.m)
  let rate := fl.pow (fl.sub fl.one (fl.pow fl.e expoInner)) (fl.ofUint64 f.k)
  pure (rate, f)

/-- The bit of storage at byte `slot`, offset `bit`. -/
def Filter.bit (f : Filter) (slot bit : Nat) : Bool :=
  (f.keys.getD slot 0).testBit bit

/-- A filter as the claims take it: `m` a power of two that a `uint64` holds,
`m` bytes of storage, every field within its Go type, and a mutex whenever
the filter is concurrent. -/
def WellFormed (f : Filter) : Prop :=
  (∃ p, p < 64 ∧ f.m = 2 ^ p) ∧ f.keys.length = f.m ∧ (∀ b ∈ f.keys, b < 256) ∧
    f.k < 2 ^ 64 ∧ f.n < 2 ^ 64 ∧ (f.concurrent = true → f.lock = true)

instance (f : Filter) : Decidable (WellFormed f) := by
  unfold WellFormed; infer_instance

/-- Stand-in `float64` operations over the rationals (the exponential is not
rational: `pow` is a placeholder), used only to evaluate the state effect of
`FalsePositiveRate` at a concrete input. -/
def demoFloat : Float64Ops Rat :=
  { ofUint64 := fun n => (n : Rat), neg := fun a => -a, div := fun a b => a / b,
    sub := fun a b => a - b, pow := fun a _ => a, one := 1, e := 2 }

/-- A small digest used to evaluate the definitions at concrete inputs. -/
def demoSum128 (data : List Nat) : Nat × Nat :=
  (data.foldl (fun a b => (a * 31 + b) % 2 ^ 64) 7,
   data.foldl (fun a b => (a * 131 + b + 1) % 2 ^ 64) 3)

/-- The filter `demoFilter` after `Add([1, 2, 3])` under `demoSum128`. -/
def demoFilterAdded : Filter :=
  { lock := false, concurrent := false, m := 4, n := 1, log2m := 2, k := 3,
    keys := [4, 0, 0, 136] }

/-- A second well-formed filter of the same shape, with some bits set. -/
def demoFilter2 : Filter :=
  { lock := false, concurrent := false, m := 4, n := 5, log2m := 2, k := 3,
    keys := [1, 0, 128, 200] }

/-- A well-formed filter of four bytes and three probes, nothing inserted. -/
def demoFilter : Filter :=
  { lock := false, concurrent := false, m := 4, n := 0, log2m := 2, k := 3,
    keys := [0, 0, 0, 0] }


/-! ## Auxiliary definitions used to state the properties -/

/-- The value `location h i` returns (`0` where it panics). -/
def locationVal (h : List Nat) (i : Nat) : Nat :=
  match location h i with
  | .ok v => v
  | .error _ => 0

/-- Storage with the bit at byte `p.1`, offset `p.2` switched on. -/
def orBit (keys : List Nat) (p : Nat × Nat) : List Nat :=
  keys.set p.1 (keys.getD p.1 0 ||| 2 ^ p.2)

/-- The byte slot and bit offset of the `i`-th probe of `data` in `f`. -/
def Filter.probe (sum128 : List Nat → Nat × Nat) (f : Filter) (data : List Nat) (i : Nat) :
    Nat × Nat :=
  f.location (locationVal (baseHash sum128 data) i)

/-- A mutating call that inserts keys: `Add(x)` or `AddBatch(xs)`. -/
inductive Op where
  | add (x : List Nat)
  | addBatch (xs : List (List Nat))
  deriving DecidableEq, Repr

/-- The keys a call inserts. -/
def Op.inserted : Op → List (List Nat)
  | .add x => [x]
  | .addBatch xs => xs

/-- One call on the filter. -/
def Filter.call (sum128 : List Nat → Nat × Nat) (f : Filter) : Op → Except Panic Filter
  | .add x => f.Add sum128 x
  | .addBatch xs => f.AddBatch sum128 xs

/-- A sequence of `Add`/`AddBatch` calls, in order, with no `Reset` between. -/
def Filter.calls (sum128 : List Nat → Nat × Nat) (f : Filter) (ops : List Op) :
    Except Panic Filter :=
  ops.foldlM (Filter.call sum128) f

/-- The filter `g` has the shape of `f` and every bit set in `f` is set in `g`. -/
def Filter.Grows (f g : Filter) : Prop :=
  g.m = f.m ∧ g.k = f.k ∧ g.lock = f.lock ∧ g.concurrent = f.concurrent ∧
    g.log2m = f.log2m ∧ g.keys.length = f.keys.length ∧
    ∀ s b, f.bit s b = true → g.bit s b = true

/-- Every probe bit of `x` is set in `f`. -/
def Filter.Covers (sum128 : List Nat → Nat × Nat) (f : Filter) (x : List Nat) : Prop :=
  ∀ i, i < f.k → f.bit (f.probe sum128 x i).1 (f.probe sum128 x i).2 = true

/-- The number `v` is the smallest power of two that is at least `c`. -/
def IsLeastPowerOfTwoGe (c v : Nat) : Prop :=
  (∃ p, v = 2 ^ p) ∧ c ≤ v ∧ ∀ w, (∃ q, w = 2 ^ q) → c ≤ w → v ≤ w

/-- Modelled from the spec: `binary.LittleEndian.PutUint16` belongs to Go's
`encoding/binary`, not to the repository; the spec (section 6) asks for a
fixed-width little-endian encoding: `b[0] = byte(v)`, `b[1] = byte(v >> 8)`. -/
def putUint16 (v : Nat) : List Nat :=
  [v % 256, (v >>> 8) % 256]

/-- Modelled from the spec: `binary.LittleEndian.PutUint32`, four bytes, least
significant first. -/
def putUint32 (v : Nat) : List Nat :=
  [v % 256, (v >>> 8) % 256, (v >>> 16) % 256, (v >>> 24) % 256]

/-- Modelled from the spec: `binary.LittleEndian.PutUint64`, eight bytes, least
significant first. -/
def putUint64 (v : Nat) : List Nat :=
  [v % 256, (v >>> 8) % 256, (v >>> 16) % 256, (v >>> 24) % 256,
    (v >>> 32) % 256, (v >>> 40) % 256, (v >>> 48) % 256, (v >>> 56) % 256]

/-- `Uint16ToBytes(num)`: a fresh two-byte slice filled by `PutUint16`. -/
def Uint16ToBytes (num : Nat) : List Nat :=
  putUint16 num

/-- `Uint32ToBytes(num)`: a fresh four-byte slice filled by `PutUint32`. -/
def Uint32ToBytes (num : Nat) : List Nat :=
  putUint32 num

/-- `Uint64ToBytes(num)`: a fresh eight-byte slice filled by `PutUint64`. -/
def Uint64ToBytes (num : Nat) : List Nat :=
  putUint64 num

/-- `f.AddUint16(num)`. -/
def Filter.AddUint16 (sum128 : List Nat → Nat × Nat) (f : Filter) (num : Nat) :
    Except Panic Filter :=
  f.Add sum128 (Uint16ToBytes num)

/-- `f.TestUint16(num)`. -/
def Filter.TestUint16 (sum128 : List Nat → Nat × Nat) (f : Filter) (num : Nat) :
    Except Panic (Bool × Filter) :=
  f.Test sum128 (Uint16ToBytes num)

/-- `f.AddUint32(num)`. -/
def Filter.AddUint32 (sum128 : List Nat → Nat × Nat) (f : Filter) (num : Nat) :
    Except Panic Filter :=
  f.Add sum128 (Uint32ToBytes num)

/-- `f.TestUint32(num)`. -/
def Filter.TestUint32 (sum128 : List Nat → Nat × Nat) (f : Filter) (num : Nat) :
    Except Panic (Bool × Filter) :=
  f.Test sum128 (Uint32ToBytes num)

/-- `f.AddUint64(num)`. -/
def Filter.AddUint64 (sum128 : List Nat → Nat × Nat) (f : Filter) (num : Nat) :
    Except Panic Filter :=
  f.Add sum128 (Uint64ToBytes num)

/-- `f.TestUint64(num)`. -/
def Filter.TestUint64 (sum128 : List Nat → Nat × Nat) (f : Filter) (num : Nat) :
    Except Panic (Bool × Filter) :=
  f.Test sum128 (Uint64ToBytes num)

/-- The number a byte sequence stands for, least significant byte first. -/
def littleEndian (bs : List Nat) : Nat :=
  bs.foldr (fun b acc => b + 256 * acc) 0

/-- The `float64` operations read as exact operations on the real numbers,
the reading under which the rate is `(1 - e^(-(k*n)/m))^k`: `math.E` is
`exp 1` and `math.Pow` the real power. -/
noncomputable def realFloat : Float64Ops Real :=
  { ofUint64 := fun n => (n : Real)
    neg := fun a => -a
    div := fun a b => a / b
    sub := fun a b => a - b
    pow := fun a b => a ^ b
    one := 1
    e := Real.exp 1 }

/-- A call of any of the eight public operations. -/
inductive Call where
  | add (x : List Nat)
  | addBatch (xs : List (List Nat))
  | test (x : List Nat)
  | reset
  | merge (g : Filter)
  | cap
  | size
  | falsePositiveRate

/-- A method of `sync.RWMutex` called on `f.lock`. -/
inductive LockCall where
  | Lock
  | Unlock
  | RLock
  | RUnlock
  deriving DecidableEq, Repr

/-- The guard `if f.concurrent { f.lock.acq(); defer f.lock.rel() }`: the mutex
calls of a run that takes the guard and returns. -/
def Filter.guardCalls (f : Filter) (acq rel : LockCall) : List LockCall :=
  if f.concurrent then [acq, rel] else []

/-- The mutex calls each operation makes on the receiver, read off its guard
lines: `Lock`/`Unlock` in `Add`, `Test`, `AddBatch`, `Reset` and (after its
three checks) `MergeInPlace`; `RLock`/`RUnlock` in `Cap`, `Size` and
`FalsePositiveRate`. -/
def Filter.lockCalls (f : Filter) : Call → List LockCall
  | .add _ => f.guardCalls .Lock .Unlock
  | .test _ => f.guardCalls .Lock .Unlock
  | .addBatch _ => f.guardCalls .Lock .Unlock
  | .reset => f.guardCalls .Lock .Unlock
  | .merge g =>
    if f.m ≠ g.m then []
    else if f.k ≠ g.k then []
    else if g.concurrent then []
    else f.guardCalls .Lock .Unlock
  | .cap => f.guardCalls .RLock .RUnlock
  | .size => f.guardCalls .RLock .RUnlock
  | .falsePositiveRate => f.guardCalls .RLock .RUnlock

/-- A concurrency-enabled filter of four bytes and three probes. -/
def demoConcurrent : Filter :=
  { lock := true, concurrent := true, m := 4, n := 0, log2m := 2, k := 3,
    keys := [0, 0, 0, 0] }

/-- The call is a `Reset`. -/
def Call.isReset : Call → Bool
  | .reset => true
  | _ => false

/-- The keys a call inserts: those of `Add` and `AddBatch`, none otherwise. -/
def Call.inserted : Call → List (List Nat)
  | .add x => [x]
  | .addBatch xs => xs
  | _ => []

/-- The filter passed to a `MergeInPlace` call is well formed. -/
def Call.ArgWellFormed : Call → Prop
  | .merge g => WellFormed g
  | _ => True

/-- The state of the receiver after one call (the returned value is dropped). -/
def Filter.perform {F : Type} (fl : Float64Ops F) (sum128 : List Nat → Nat × Nat)
    (f : Filter) : Call → Except Panic Filter
  | .add x => f.Add sum128 x
  | .addBatch xs => f.AddBatch sum128 xs
  | .test x => do
    let r ← f.Test sum128 x
    pure r.2
  | .reset => f.Reset
  | .merge g => do
    let r ← f.MergeInPlace g
    pure r.f
  | .cap => do
    let r ← f.Cap
    pure r.2
  | .size => do
    let r ← f.Size
    pure r.2
  | .falsePositiveRate => do
    let r ← f.FalsePositiveRate fl
    pure r.2

/-- The state of the receiver after a sequence of calls, in order. -/
def Filter.performAll {F : Type} (fl : Float64Ops F) (sum128 : List Nat → Nat × Nat)
    (f : Filter) (cs : List Call) : Except Panic Filter :=
  cs.foldlM (Filter.perform fl sum128) f

/-! ## Lemmas -/

theorem mod7_eq : mod7 = 7 := by decide

theorem baseHash_length (s : List Nat → Nat × Nat) (d : List Nat) :
    (baseHash s d).length = 4 := rfl

theorem index_ok {h : List Nat} {i : Nat} (hi : i < h.length) :
    index h i = .ok (h.getD i 0) := by
  simp [index, List.getElem?_eq_getElem hi, List.getD_eq_getElem?_getD]

theorem location_total {h : List Nat} (hh : h.length = 4) (i : Nat) :
    ∃ v, location h i = .ok v := by
  have h1 : i &&& 1 < h.length := by
    have := @Nat.and_le_right i 1
    omega
  have h2 : 2 + (((i + (i &&& 1)) % 2 ^ 64) &&& 3) / 2 < h.length := by
    have := @Nat.and_le_right ((i + (i &&& 1)) % 2 ^ 64) 3
    omega
  refine ⟨(h.getD (i &&& 1) 0 +
    i * h.getD (2 + ((i + (i &&& 1)) % 2 ^ 64 &&& 3) / 2) 0 % 2 ^ 64) % 2 ^ 64, ?_⟩
  simp only [location, index_ok h1, index_ok h2, bind, Except.bind, pure, Except.pure]

theorem location_ok {h : List Nat} (hh : h.length = 4) (i : Nat) :
    location h i = .ok (locationVal h i) := by
  obtain ⟨v, hv⟩ := location_total hh i
  simp [locationVal, hv]

theorem wf_m_pos {f : Filter} (wf : WellFormed f) : 0 < f.m := by
  obtain ⟨⟨p, _, hp⟩, _⟩ := wf
  rw [hp]; exact Nat.pos_pow_of_pos p (by decide)

theorem location_fst_lt {f : Filter} (wf : WellFormed f) (loc : Nat) :
    (f.location loc).1 < f.keys.length := by
  obtain ⟨⟨p, hp64, hp⟩, hlen, _⟩ := wf
  have hlt : f.m < 2 ^ 64 := by rw [hp]; exact Nat.pow_lt_pow_right (by decide) hp64
  have hpos : 0 < f.m := by rw [hp]; exact Nat.pos_pow_of_pos p (by decide)
  have hm : (f.m + 2 ^ 64 - 1) % 2 ^ 64 = f.m - 1 := by
    have : f.m + 2 ^ 64 - 1 = (f.m - 1) + 2 ^ 64 := by omega
    rw [this, Nat.add_mod_right, Nat.mod_eq_of_lt (by omega)]
  have := @Nat.and_le_right (loc / bitPerByte) (f.m - 1)
  simp only [Filter.location, hm]
  omega

theorem location_snd_lt (f : Filter) (loc : Nat) : (f.location loc).2 < 8 := by
  have := @Nat.and_le_right loc 7
  simp only [Filter.location, mod7_eq]
  omega

theorem setBit_eq {keys : List Nat} {slot mod : Nat} (hb : ∀ b ∈ keys, b < 256)
    (hs : slot < keys.length) (hm : mod < 8) :
    setBit keys slot mod = .ok (orBit keys (slot, mod)) := by
  have h1 : (1 <<< mod) % 256 = 2 ^ mod := by
    rw [Nat.one_shiftLeft]
    apply Nat.mod_eq_of_lt
    calc 2 ^ mod < 2 ^ 8 := Nat.pow_lt_pow_right (by decide) hm
      _ = 256 := by norm_num
  have hk : keys[slot] < 2 ^ 8 := hb _ (List.getElem_mem _)
  have h2 : 2 ^ mod < 2 ^ 8 := Nat.pow_lt_pow_right (by decide) hm
  have h3 : (keys[slot] ||| 2 ^ mod) % 256 = keys[slot] ||| 2 ^ mod :=
    Nat.mod_eq_of_lt (Nat.or_lt_two_pow hk h2)
  simp [setBit, orBit, List.getElem?_eq_getElem hs, h1, h3, List.getD_eq_getElem?_getD]

theorem orBit_length (keys : List Nat) (p : Nat × Nat) :
    (orBit keys p).length = keys.length := by
  simp [orBit]

theorem getD_lt_of_bytes {keys : List Nat} (hb : ∀ b ∈ keys, b < 256) (s : Nat) :
    keys.getD s 0 < 256 := by
  by_cases hs : s < keys.length
  · rw [List.getD_eq_getElem _ _ hs]
    exact hb _ (List.getElem_mem _)
  · rw [List.getD_eq_default _ _ (by omega)]
    decide

theorem orBit_bytes {keys : List Nat} {p : Nat × Nat} (hb : ∀ b ∈ keys, b < 256)
    (hm : p.2 < 8) : ∀ b ∈ orBit keys p, b < 256 := by
  intro b hmem
  rcases List.mem_or_eq_of_mem_set hmem with h | h
  · exact hb b h
  · subst h
    have h1 : keys.getD p.1 0 < 2 ^ 8 := getD_lt_of_bytes hb p.1
    have h2 : 2 ^ p.2 < 2 ^ 8 := Nat.pow_lt_pow_right (by decide) hm
    exact Nat.or_lt_two_pow h1 h2

theorem orBit_testBit {keys : List Nat} {p : Nat × Nat} (hs : p.1 < keys.length)
    (s b : Nat) :
    ((orBit keys p).getD s 0).testBit b = true ↔
      (keys.getD s 0).testBit b = true ∨ p = (s, b) := by
  obtain ⟨p1, p2⟩ := p
  simp only [Prod.mk.injEq]
  by_cases h : p1 = s
  · subst h
    simp only [orBit, List.getD_eq_getElem?_getD, List.getElem?_set_self hs, Option.getD_some,
      Nat.testBit_or, Nat.testBit_two_pow, Bool.or_eq_true, decide_eq_true_eq, true_and]
  · have h2 : ¬ (p1 = s ∧ p2 = b) := fun hc => h hc.1
    simp only [orBit, List.getD_eq_getElem?_getD, List.getElem?_set_ne h, h2, or_false]

theorem acquire_ok {f : Filter} (wf : WellFormed f) : f.acquire = .ok () := by
  obtain ⟨_, _, _, _, _, hl⟩ := wf
  unfold Filter.acquire
  cases hc : f.concurrent
  · simp
  · simp [hl hc]

theorem wf_keys {f : Filter} (wf : WellFormed f) {ks : List Nat}
    (hl : ks.length = f.keys.length) (hb : ∀ b ∈ ks, b < 256) :
    WellFormed { f with keys := ks } := by
  obtain ⟨h1, h2, _, h4, h5, h6⟩ := wf
  exact ⟨h1, by simpa [hl] using h2, hb, h4, h5, h6⟩

theorem wf_n {f : Filter} (wf : WellFormed f) {n : Nat} (hn : n < 2 ^ 64) :
    WellFormed { f with n := n } := by
  obtain ⟨h1, h2, h3, h4, _, h6⟩ := wf
  exact ⟨h1, h2, h3, h4, hn, h6⟩

theorem probeStep_eq {f : Filter} (wf : WellFormed f) {h : List Nat} (hh : h.length = 4)
    (i : Nat) :
    f.probeStep h i = .ok { f with keys := orBit f.keys (f.location (locationVal h i)) } := by
  have hb := wf.2.2.1
  simp only [Filter.probeStep, location_ok hh i, bind, Except.bind,
    setBit_eq hb (location_fst_lt wf _) (location_snd_lt f _), pure, Except.pure]

theorem foldlM_probeStep {h : List Nat} (hh : h.length = 4) :
    ∀ (l : List Nat) (f : Filter), WellFormed f →
      ∃ ks, l.foldlM (Filter.probeStep h) f = .ok { f with keys := ks } ∧
        ks.length = f.keys.length ∧ (∀ b ∈ ks, b < 256) ∧
        ∀ s b, (ks.getD s 0).testBit b = true ↔
          (f.keys.getD s 0).testBit b = true ∨ ∃ i ∈ l, f.location (locationVal h i) = (s, b) := by
  intro l
  induction l with
  | nil =>
    intro f wf
    exact ⟨f.keys, rfl, rfl, wf.2.2.1, by simp⟩
  | cons i l ih =>
    intro f wf
    have wf1 : WellFormed { f with keys := orBit f.keys (f.location (locationVal h i)) } :=
      wf_keys wf (orBit_length _ _) (orBit_bytes wf.2.2.1 (location_snd_lt f _))
    obtain ⟨ks, hks, hlen, hby, hbit⟩ := ih _ wf1
    refine ⟨ks, ?_, ?_, hby, ?_⟩
    · rw [List.foldlM_cons, probeStep_eq wf hh i]
      exact hks
    · rw [hlen]; exact orBit_length _ _
    · intro s b
      rw [hbit s b]
      have := @orBit_testBit f.keys (f.location (locationVal h i))
        (location_fst_lt wf _) s b
      simp only [this, List.mem_cons, exists_eq_or_imp]
      constructor
      · rintro ((h1 | h1) | h1)
        · exact Or.inl h1
        · exact Or.inr (Or.inl h1)
        · exact Or.inr (Or.inr h1)
      · rintro (h1 | h1 | h1)
        · exact Or.inl (Or.inl h1)
        · exact Or.inl (Or.inr h1)
        · exact Or.inr h1

theorem setProbes_spec {f : Filter} (wf : WellFormed f) {h : List Nat} (hh : h.length = 4) :
    ∃ ks, f.setProbes h = .ok { f with keys := ks } ∧
      ks.length = f.keys.length ∧ (∀ b ∈ ks, b < 256) ∧
      ∀ s b, (ks.getD s 0).testBit b = true ↔
        (f.keys.getD s 0).testBit b = true ∨ ∃ i, i < f.k ∧ f.location (locationVal h i) = (s, b) := by
  obtain ⟨ks, h1, h2, h3, h4⟩ := foldlM_probeStep hh (List.range f.k) f wf
  refine ⟨ks, h1, h2, h3, ?_⟩
  intro s b
  rw [h4 s b]
  simp only [List.mem_range]

theorem Add_spec (sum128 : List Nat → Nat × Nat) {f : Filter} (wf : WellFormed f)
    (x : List Nat) :
    ∃ ks, f.Add sum128 x = .ok { f with keys := ks, n := (f.n + 1) % 2 ^ 64 } ∧
      ks.length = f.keys.length ∧ (∀ b ∈ ks, b < 256) ∧
      ∀ s b, (ks.getD s 0).testBit b = true ↔
        (f.keys.getD s 0).testBit b = true ∨ ∃ i, i < f.k ∧ f.probe sum128 x i = (s, b) := by
  obtain ⟨ks, h1, h2, h3, h4⟩ := setProbes_spec wf (baseHash_length sum128 x)
  refine ⟨ks, ?_, h2, h3, h4⟩
  simp only [Filter.Add, acquire_ok wf, h1, bind, Except.bind, pure, Except.pure]

theorem and_shift_eq_zero (b : Nat) {mod : Nat} (hm : mod < 8) :
    (b &&& (1 <<< mod) % 256) = 0 ↔ b.testBit mod = false := by
  have h1 : (1 <<< mod) % 256 = 2 ^ mod := by
    rw [Nat.one_shiftLeft]
    apply Nat.mod_eq_of_lt
    calc 2 ^ mod < 2 ^ 8 := Nat.pow_lt_pow_right (by decide) hm
      _ = 256 := by norm_num
  rw [h1, Nat.and_two_pow]
  cases b.testBit mod <;> simp

theorem testProbes_spec {f : Filter} (wf : WellFormed f) {h : List Nat} (hh : h.length = 4) :
    ∀ l : List Nat, ∃ r, f.testProbes h l = .ok r ∧
      (r = true ↔ ∀ i ∈ l, f.bit (f.location (locationVal h i)).1
        (f.location (locationVal h i)).2 = true) := by
  intro l
  induction l with
  | nil => exact ⟨true, rfl, by simp⟩
  | cons i l ih =>
    obtain ⟨r, hr, hiff⟩ := ih
    have hidx := index_ok (location_fst_lt wf (locationVal h i))
    by_cases hbit : f.bit (f.location (locationVal h i)).1 (f.location (locationVal h i)).2 = true
    · refine ⟨r, ?_, ?_⟩
      · have hne : ¬ (f.keys.getD (f.location (locationVal h i)).1 0 &&&
            (1 <<< (f.location (locationVal h i)).2) % 256) = 0 := by
          rw [and_shift_eq_zero _ (location_snd_lt f _)]
          simpa [Filter.bit] using hbit
        simp only [Filter.testProbes, location_ok hh i, bind, Except.bind, hidx, hne, if_false]
        exact hr
      · simp only [List.mem_cons, forall_eq_or_imp, hbit, true_and]
        exact hiff
    · refine ⟨false, ?_, ?_⟩
      · have he : (f.keys.getD (f.location (locationVal h i)).1 0 &&&
            (1 <<< (f.location (locationVal h i)).2) % 256) = 0 := by
          rw [and_shift_eq_zero _ (location_snd_lt f _)]
          simpa [Filter.bit] using hbit
        simp only [Filter.testProbes, location_ok hh i, bind, Except.bind, hidx, he, if_true,
          pure, Except.pure]
      · simp only [List.mem_cons, forall_eq_or_imp, hbit, false_and]
        simp

theorem Test_spec (sum128 : List Nat → Nat × Nat) {f : Filter} (wf : WellFormed f)
    (x : List Nat) :
    ∃ r, f.Test sum128 x = .ok (r, f) ∧
      (r = true ↔ ∀ i, i < f.k →
        f.bit (f.probe sum128 x i).1 (f.probe sum128 x i).2 = true) := by
  obtain ⟨r, hr, hiff⟩ := testProbes_spec wf (baseHash_length sum128 x) (List.range f.k)
  refine ⟨r, ?_, ?_⟩
  · simp only [Filter.Test, acquire_ok wf, hr, bind, Except.bind, pure, Except.pure]
  · rw [hiff]
    simp only [List.mem_range, Filter.probe]

theorem location_eq_ok_iff {h : List Nat} (hh : h.length = 4) (i loc : Nat) :
    location h i = .ok loc ↔ loc = locationVal h i := by
  rw [location_ok hh i]
  constructor
  · intro e; injection e with e; exact e.symm
  · intro e; rw [e]

theorem grows_refl (f : Filter) : f.Grows f :=
  ⟨rfl, rfl, rfl, rfl, rfl, rfl, fun _ _ h => h⟩

theorem grows_trans {f g k : Filter} (h1 : f.Grows g) (h2 : g.Grows k) : f.Grows k := by
  obtain ⟨a1, a2, a3, a4, a5, a6, a7⟩ := h1
  obtain ⟨b1, b2, b3, b4, b5, b6, b7⟩ := h2
  exact ⟨b1.trans a1, b2.trans a2, b3.trans a3, b4.trans a4, b5.trans a5, b6.trans a6,
    fun s b h => b7 s b (a7 s b h)⟩

theorem probe_of_m_eq (sum128 : List Nat → Nat × Nat) {f g : Filter} (hm : g.m = f.m)
    (x : List Nat) (i : Nat) : g.probe sum128 x i = f.probe sum128 x i := by
  simp only [Filter.probe, Filter.location, hm]

theorem covers_mono {sum128 : List Nat → Nat × Nat} {f g : Filter} {x : List Nat}
    (hc : f.Covers sum128 x) (hg : f.Grows g) : g.Covers sum128 x := by
  intro i hi
  rw [probe_of_m_eq sum128 hg.1 x i]
  exact hg.2.2.2.2.2.2 _ _ (hc i (hg.2.1 ▸ hi))

theorem Add_grows (sum128 : List Nat → Nat × Nat) {f : Filter} (wf : WellFormed f)
    (x : List Nat) :
    ∃ g, f.Add sum128 x = .ok g ∧ WellFormed g ∧ f.Grows g ∧ g.Covers sum128 x ∧
      g.n = (f.n + 1) % 2 ^ 64 := by
  obtain ⟨ks, h1, h2, h3, h4⟩ := Add_spec sum128 wf x
  refine ⟨_, h1, ?_, ⟨rfl, rfl, rfl, rfl, rfl, h2, ?_⟩, ?_, rfl⟩
  · exact wf_n (wf_keys wf h2 h3) (Nat.mod_lt _ (by norm_num))
  · intro s b hb
    exact (h4 s b).2 (Or.inl hb)
  · intro i hi
    exact (h4 _ _).2 (Or.inr ⟨i, hi, rfl⟩)

theorem batchStep_eq_Add (sum128 : List Nat → Nat × Nat) {f : Filter} (wf : WellFormed f)
    (x : List Nat) : f.batchStep sum128 x = f.Add sum128 x := by
  simp only [Filter.batchStep, Filter.Add, acquire_ok wf, bind, Except.bind]

theorem foldlM_batchStep_grows (sum128 : List Nat → Nat × Nat) :
    ∀ (xs : List (List Nat)) (f : Filter), WellFormed f →
      ∃ g, xs.foldlM (Filter.batchStep sum128) f = .ok g ∧ WellFormed g ∧ f.Grows g ∧
        (∀ x ∈ xs, g.Covers sum128 x) ∧ g.n = (f.n + xs.length) % 2 ^ 64 := by
  intro xs
  induction xs with
  | nil =>
    intro f wf
    exact ⟨f, rfl, wf, grows_refl f, by simp, by
      simp only [List.length_nil, Nat.add_zero]
      exact (Nat.mod_eq_of_lt wf.2.2.2.2.1).symm⟩
  | cons x xs ih =>
    intro f wf
    obtain ⟨g1, e1, wf1, gr1, cv1, n1⟩ := Add_grows sum128 wf x
    obtain ⟨g, e2, wf2, gr2, cv2, n2⟩ := ih g1 wf1
    refine ⟨g, ?_, wf2, grows_trans gr1 gr2, ?_, ?_⟩
    · rw [List.foldlM_cons, batchStep_eq_Add sum128 wf, e1]
      exact e2
    · intro y hy
      rcases List.mem_cons.1 hy with h | h
      · subst h; exact covers_mono cv1 gr2
      · exact cv2 y h
    · rw [n2, n1, List.length_cons]
      omega

theorem AddBatch_grows (sum128 : List Nat → Nat × Nat) {f : Filter} (wf : WellFormed f)
    (xs : List (List Nat)) :
    ∃ g, f.AddBatch sum128 xs = .ok g ∧ WellFormed g ∧ f.Grows g ∧
      (∀ x ∈ xs, g.Covers sum128 x) ∧ g.n = (f.n + xs.length) % 2 ^ 64 := by
  obtain ⟨g, e, rest⟩ := foldlM_batchStep_grows sum128 xs f wf
  refine ⟨g, ?_, rest⟩
  simp only [Filter.AddBatch, acquire_ok wf, bind, Except.bind]
  exact e

theorem calls_grows (sum128 : List Nat → Nat × Nat) :
    ∀ (ops : List Op) (f : Filter), WellFormed f →
      ∃ g, f.calls sum128 ops = .ok g ∧ WellFormed g ∧ f.Grows g ∧
        ∀ op ∈ ops, ∀ x ∈ op.inserted, g.Covers sum128 x := by
  intro ops
  induction ops with
  | nil =>
    intro f wf
    exact ⟨f, rfl, wf, grows_refl f, by simp⟩
  | cons op ops ih =>
    intro f wf
    have step : ∃ g, f.call sum128 op = .ok g ∧ WellFormed g ∧ f.Grows g ∧
        ∀ x ∈ op.inserted, g.Covers sum128 x := by
      cases op with
      | add x =>
        obtain ⟨g, e, w, gr, cv, _⟩ := Add_grows sum128 wf x
        exact ⟨g, e, w, gr, by simpa [Op.inserted] using cv⟩
      | addBatch xs =>
        obtain ⟨g, e, w, gr, cv, _⟩ := AddBatch_grows sum128 wf xs
        exact ⟨g, e, w, gr, cv⟩
    obtain ⟨g1, e1, wf1, gr1, cv1⟩ := step
    obtain ⟨g, e2, wf2, gr2, cv2⟩ := ih g1 wf1
    refine ⟨g, ?_, wf2, grows_trans gr1 gr2, ?_⟩
    · simp only [Filter.calls, List.foldlM_cons, e1, bind, Except.bind]
      exact e2
    · intro o ho x hx
      rcases List.mem_cons.1 ho with h | h
      · subst h; exact covers_mono (cv1 x hx) gr2
      · exact cv2 o h x hx

/-! ## The claims -/

/-- C1 (no false negatives): on a well-formed filter, after any sequence of
`Add`/`AddBatch` calls one of which inserted the key `x` (by `Add(x)` or as an
element of a batch), the sequence runs to completion and `Test(x)` returns
`true`. -/
theorem C1_no_false_negatives (sum128 : List Nat → Nat × Nat) (f : Filter)
    (wf : WellFormed f) (ops : List Op) (x : List Nat)
    (hx : ∃ op ∈ ops, x ∈ op.inserted) :
    ∃ g, f.calls sum128 ops = .ok g ∧ g.Test sum128 x = .ok (true, g) := by
  obtain ⟨g, e, wfg, _, cv⟩ := calls_grows sum128 ops f wf
  obtain ⟨op, hop, hmem⟩ := hx
  obtain ⟨r, hr, hiff⟩ := Test_spec sum128 wfg x
  have : r = true := hiff.2 (cv op hop x hmem)
  subst this
  exact ⟨g, e, hr⟩

/-- C1 at a concrete input: a key inserted inside a batch, with calls before
and after it. -/
theorem C1_no_false_negatives_witness :
    WellFormed demoFilter ∧
      ∃ g, demoFilter.calls demoSum128
          [Op.add [1, 2, 3], Op.addBatch [[4], [5, 6]], Op.add [9]] = .ok g ∧
        g.Test demoSum128 [4] = .ok (true, g) :=
  ⟨by decide,
    C1_no_false_negatives demoSum128 demoFilter (by decide)
      [Op.add [1, 2, 3], Op.addBatch [[4], [5, 6]], Op.add [9]] [4]
      ⟨Op.addBatch [[4], [5, 6]], by simp, by simp [Op.inserted]⟩⟩

/-- C2 (what `Test` computes): on a well-formed filter `Test(x)` returns, its
answer is `true` exactly when the bit addressed by every probe index
`i < k` is set, `false` exactly when one of those bits is clear, and the
filter state after the call is the state before it. -/
theorem C2_test_iff_all_probe_bits_set (sum128 : List Nat → Nat × Nat) (f : Filter)
    (wf : WellFormed f) (x : List Nat) :
    ∃ r, f.Test sum128 x = .ok (r, f) ∧
      (r = true ↔ ∀ i, i < f.k → ∃ loc, location (baseHash sum128 x) i = .ok loc ∧
        f.bit (f.location loc).1 (f.location loc).2 = true) ∧
      (r = false ↔ ∃ i, i < f.k ∧ ∃ loc, location (baseHash sum128 x) i = .ok loc ∧
        f.bit (f.location loc).1 (f.location loc).2 = false) := by
  obtain ⟨r, hr, hiff⟩ := Test_spec sum128 wf x
  have key : ∀ i, (∃ loc, location (baseHash sum128 x) i = .ok loc ∧
      f.bit (f.location loc).1 (f.location loc).2 = true) ↔
      f.bit (f.probe sum128 x i).1 (f.probe sum128 x i).2 = true := by
    intro i
    simp only [location_eq_ok_iff (baseHash_length sum128 x), exists_eq_left, Filter.probe]
  have key2 : ∀ i, (∃ loc, location (baseHash sum128 x) i = .ok loc ∧
      f.bit (f.location loc).1 (f.location loc).2 = false) ↔
      f.bit (f.probe sum128 x i).1 (f.probe sum128 x i).2 = false := by
    intro i
    simp only [location_eq_ok_iff (baseHash_length sum128 x), exists_eq_left, Filter.probe]
  refine ⟨r, hr, ?_, ?_⟩
  · simp only [key]
    exact hiff
  · simp only [key2]
    constructor
    · intro hf
      by_contra hne
      have hall : ∀ i, i < f.k → f.bit (f.probe sum128 x i).1 (f.probe sum128 x i).2 = true := by
        intro i hi
        by_contra hb
        exact hne ⟨i, hi, by simpa using hb⟩
      have := hiff.2 hall
      rw [hf] at this
      exact Bool.noConfusion this
    · rintro ⟨i, hi, hb⟩
      cases hrr : r with
      | false => rfl
      | true =>
        have := hiff.1 hrr i hi
        rw [hb] at this
        exact Bool.noConfusion this

/-- C2 at a concrete input. -/
theorem C2_test_iff_all_probe_bits_set_witness :
    WellFormed demoFilter ∧
      ∃ r, demoFilter.Test demoSum128 [1, 2, 3] = .ok (r, demoFilter) ∧
        (r = true ↔ ∀ i, i < demoFilter.k →
          ∃ loc, location (baseHash demoSum128 [1, 2, 3]) i = .ok loc ∧
            demoFilter.bit (demoFilter.location loc).1 (demoFilter.location loc).2 = true) ∧
        (r = false ↔ ∃ i, i < demoFilter.k ∧
          ∃ loc, location (baseHash demoSum128 [1, 2, 3]) i = .ok loc ∧
            demoFilter.bit (demoFilter.location loc).1 (demoFilter.location loc).2 = false) :=
  ⟨by decide, C2_test_iff_all_probe_bits_set demoSum128 demoFilter (by decide) [1, 2, 3]⟩

/-- C3 (`Add` sets exactly the probe bits): on a well-formed filter `Add(x)`
returns, the storage keeps its length, a bit is set afterwards exactly when
it was set before or is the bit addressed by some probe index `i < k`, and
every bit that no probe addresses has the value it had before. -/
theorem C3_add_sets_exactly_probe_bits (sum128 : List Nat → Nat × Nat) (f : Filter)
    (wf : WellFormed f) (x : List Nat) :
    ∃ g, f.Add sum128 x = .ok g ∧ g.keys.length = f.keys.length ∧
      (∀ slot bit, g.bit slot bit = true ↔
        (f.bit slot bit = true ∨ ∃ i, i < f.k ∧ ∃ loc,
          location (baseHash sum128 x) i = .ok loc ∧ f.location loc = (slot, bit))) ∧
      (∀ slot bit, (¬ ∃ i, i < f.k ∧ ∃ loc,
          location (baseHash sum128 x) i = .ok loc ∧ f.location loc = (slot, bit)) →
        g.bit slot bit = f.bit slot bit) := by
  obtain ⟨ks, h1, h2, _, h4⟩ := Add_spec sum128 wf x
  have key : ∀ slot bit, (∃ i, i < f.k ∧ ∃ loc,
      location (baseHash sum128 x) i = .ok loc ∧ f.location loc = (slot, bit)) ↔
      ∃ i, i < f.k ∧ f.probe sum128 x i = (slot, bit) := by
    intro slot bit
    simp only [location_eq_ok_iff (baseHash_length sum128 x), exists_eq_left, Filter.probe]
  have hiff : ∀ slot bit,
      Filter.bit { f with keys := ks, n := (f.n + 1) % 2 ^ 64 } slot bit = true ↔
        (f.bit slot bit = true ∨ ∃ i, i < f.k ∧ f.probe sum128 x i = (slot, bit)) :=
    fun slot bit => h4 slot bit
  refine ⟨_, h1, h2, ?_, ?_⟩
  · intro slot bit
    rw [key]
    exact hiff slot bit
  · intro slot bit hno
    rw [key] at hno
    have := hiff slot bit
    simp only [hno, or_false] at this
    exact Bool.eq_iff_iff.2 this

/-- C3 at a concrete input. -/
theorem C3_add_sets_exactly_probe_bits_witness :
    WellFormed demoFilter ∧
      ∃ g, demoFilter.Add demoSum128 [1, 2, 3] = .ok g ∧
        g.keys.length = demoFilter.keys.length ∧
        (∀ slot bit, g.bit slot bit = true ↔
          (demoFilter.bit slot bit = true ∨ ∃ i, i < demoFilter.k ∧ ∃ loc,
            location (baseHash demoSum128 [1, 2, 3]) i = .ok loc ∧
              demoFilter.location loc = (slot, bit))) ∧
        (∀ slot bit, (¬ ∃ i, i < demoFilter.k ∧ ∃ loc,
            location (baseHash demoSum128 [1, 2, 3]) i = .ok loc ∧
              demoFilter.location loc = (slot, bit)) →
          g.bit slot bit = demoFilter.bit slot bit) :=
  ⟨by decide, C3_add_sets_exactly_probe_bits demoSum128 demoFilter (by decide) [1, 2, 3]⟩

theorem reset_eq {f : Filter} (wf : WellFormed f) :
    f.Reset = .ok { f with keys := f.keys.map (fun b => b &&& 0), n := 0 } := by
  simp only [Filter.Reset, acquire_ok wf, bind, Except.bind, pure, Except.pure]

theorem getD_eq_zero_of_all_zero {ks : List Nat} (h0 : ∀ b ∈ ks, b = 0) (s : Nat) :
    ks.getD s 0 = 0 := by
  by_cases hs : s < ks.length
  · rw [List.getD_eq_getElem _ _ hs]
    exact h0 _ (List.getElem_mem _)
  · exact List.getD_eq_default _ _ (by omega)

/-- C4 (`Reset` clears state): on a well-formed filter with `k ≥ 1`, whatever
was inserted before, `Reset` returns; afterwards every storage byte is `0`,
`Size()` is `0`, `Test(x)` is `false` for every key `x`, and `m`, `k` and the
storage length are as before. -/
theorem C4_reset_clears_state (sum128 : List Nat → Nat × Nat) (f : Filter)
    (wf : WellFormed f) (hk : 1 ≤ f.k) :
    ∃ g, f.Reset = .ok g ∧ (∀ b ∈ g.keys, b = 0) ∧ g.keys.length = f.keys.length ∧
      g.Size = .ok (0, g) ∧ (∀ x, g.Test sum128 x = .ok (false, g)) ∧
      g.m = f.m ∧ g.k = f.k := by
  have h0 : ∀ b ∈ f.keys.map (fun b => b &&& 0), b = 0 := by
    intro b hb
    obtain ⟨a, _, rfl⟩ := List.mem_map.1 hb
    exact Nat.and_zero a
  have wfg : WellFormed { f with keys := f.keys.map (fun b => b &&& 0), n := 0 } := by
    obtain ⟨w1, w2, _, w4, _, w6⟩ := wf
    refine ⟨w1, by simpa using w2, ?_, w4, by norm_num, w6⟩
    intro b hb
    rw [h0 b hb]
    decide
  refine ⟨_, reset_eq wf, h0, by simp, ?_, ?_, rfl, rfl⟩
  · simp only [Filter.Size, acquire_ok wfg, bind, Except.bind, pure, Except.pure]
  · intro x
    obtain ⟨r, hr, hiff⟩ := Test_spec sum128 wfg x
    cases hrr : r with
    | false => rw [hrr] at hr; exact hr
    | true =>
      have hb := hiff.1 hrr 0 (by simpa using hk)
      simp only [Filter.bit, getD_eq_zero_of_all_zero h0, Nat.zero_testBit] at hb
      exact Bool.noConfusion hb

/-- C4 at a concrete input: a filter with three insertions is reset. -/
theorem C4_reset_clears_state_witness :
    (WellFormed { demoFilter with keys := [4, 0, 0, 136], n := 3 } ∧ 1 ≤ demoFilter.k) ∧
      ∃ g, Filter.Reset { demoFilter with keys := [4, 0, 0, 136], n := 3 } = .ok g ∧
        (∀ b ∈ g.keys, b = 0) ∧ g.keys.length = 4 ∧
        g.Size = .ok (0, g) ∧ (∀ x, g.Test demoSum128 x = .ok (false, g)) ∧
        g.m = 4 ∧ g.k = 3 :=
  ⟨⟨by decide, by decide⟩,
    C4_reset_clears_state demoSum128 { demoFilter with keys := [4, 0, 0, 136], n := 3 }
      (by decide) (by decide)⟩

theorem New_ok (ceilLog2 : Nat → Nat) (c k : Nat) (race : Bool) (hL : ceilLog2 c ≤ 48) :
    New ceilLog2 c k race = .ok
      { m := 2 ^ ceilLog2 c, log2m := ceilLog2 c, k := k,
        keys := List.replicate (2 ^ ceilLog2 c) 0, concurrent := race, lock := race, n := 0 } := by
  have h1 : 2 ^ ceilLog2 c ≤ 2 ^ 48 := Nat.pow_le_pow_right (by decide) hL
  have h2 : (2 ^ ceilLog2 c) % 2 ^ 64 = 2 ^ ceilLog2 c := Nat.mod_eq_of_lt (by omega)
  have h3 : toInt64 (2 ^ ceilLog2 c) = ((2 ^ ceilLog2 c : Nat) : Int) := by
    unfold toInt64
    rw [h2, if_pos (by omega)]
  have h4 : ¬ ((((2 ^ ceilLog2 c : Nat) : Int) < 0) ∨
      ((maxAlloc : Nat) : Int) < ((2 ^ ceilLog2 c : Nat) : Int)) := by
    unfold maxAlloc
    omega
  simp only [New, Nat.one_shiftLeft, h2, h3, h4, if_false, Int.toNat_ofNat]

theorem New_m_le (ceilLog2 : Nat → Nat) (c k : Nat) (race : Bool) (g : Filter)
    (h : New ceilLog2 c k race = .ok g) : g.m ≤ 2 ^ 48 := by
  unfold New at h
  simp only at h
  split at h
  · exact Except.noConfusion h
  · rename_i hcond
    injection h with h
    rw [← h]
    show (1 <<< ceilLog2 c) % 2 ^ 64 ≤ 2 ^ 48
    unfold toInt64 maxAlloc at hcond
    split at hcond <;> omega

theorem cap_value {g : Filter} {v : Nat} (h : g.Cap = .ok (v, g)) : v = g.m := by
  unfold Filter.Cap at h
  cases ha : g.acquire with
  | error e => rw [ha] at h; exact Except.noConfusion h
  | ok u =>
    rw [ha] at h
    injection h with h
    exact (congrArg Prod.fst h).symm

theorem New_cap_le (ceilLog2 : Nat → Nat) (c k : Nat) (race : Bool) (g : Filter) (v : Nat)
    (hnew : New ceilLog2 c k race = .ok g) (hcap : g.Cap = .ok (v, g)) : v ≤ 2 ^ 48 := by
  rw [cap_value hcap]
  exact New_m_le ceilLog2 c k race g hnew

/-- C5 as amended (capacity is a power of two): for every requested capacity
`1 ≤ c ≤ 2 ^ 48`, any probe count and any concurrency flag, with
`log2BitLength` the ceiling of the base-2 logarithm of `c` as the spec gives
it, `New(c, k, race)` returns a filter whose `Cap()` is the smallest power of
two that is at least `c`, with exactly that many storage bytes, all zero. -/
theorem C5_cap_is_least_power_of_two (c k : Nat) (race : Bool)
    (_ : 1 ≤ c) (hmax : c ≤ 2 ^ 48) :
    ∃ g v, New mathCeilLog2 c k race = .ok g ∧ g.Cap = .ok (v, g) ∧
      IsLeastPowerOfTwoGe c v ∧ g.keys.length = v ∧ ∀ b ∈ g.keys, b = 0 := by
  have hL : mathCeilLog2 c ≤ 48 := (Nat.le_pow_iff_clog_le (by decide)).1 hmax
  refine ⟨_, 2 ^ mathCeilLog2 c, New_ok mathCeilLog2 c k race hL, ?_, ⟨⟨_, rfl⟩, ?_, ?_⟩,
    ?_, ?_⟩
  · cases race <;> rfl
  · exact Nat.le_pow_clog (by decide) c
  · rintro w ⟨q, rfl⟩ hw
    exact Nat.pow_le_pow_right (by decide) ((Nat.le_pow_iff_clog_le (by decide)).1 hw)
  · simp
  · intro b hb
    exact List.eq_of_mem_replicate hb

/-- C5 at a concrete input: the requested capacity `1000` of the tests. -/
theorem C5_cap_is_least_power_of_two_witness :
    (1 ≤ 1000 ∧ 1000 ≤ 2 ^ 48) ∧
      ∃ g v, New mathCeilLog2 1000 3 false = .ok g ∧ g.Cap = .ok (v, g) ∧
        IsLeastPowerOfTwoGe 1000 v ∧ g.keys.length = v ∧ ∀ b ∈ g.keys, b = 0 :=
  ⟨⟨by decide, by decide⟩,
    C5_cap_is_least_power_of_two 1000 3 false (by decide) (by decide)⟩

/-- C5 as stated fails.  At the requested capacity `2 ^ 64 - 1` the library
value is `64` (`float64` rounds the capacity to `2 ^ 64`), so `m = 1 << 64 = 0`
and the storage is empty.  At `2 ^ 48 + 1` the ceiling of the logarithm is
`49` and `make` panics.  And at either capacity, whatever value the library
returned, no filter that `New` returns has the `Cap()` the claim asks for:
`make` accepts at most `2 ^ 48` bytes. -/
theorem C5_counterexample :
    New (fun _ => 64) (2 ^ 64 - 1) 3 false = .ok
        { m := 0, log2m := 64, k := 3, keys := [], concurrent := false, lock := false, n := 0 } ∧
      New (fun _ => 49) (2 ^ 48 + 1) 3 false = .error Panic.makesliceLen ∧
      (¬ ∃ (ceilLog2 : Nat → Nat) (g : Filter) (v : Nat),
        New ceilLog2 (2 ^ 64 - 1) 3 false = .ok g ∧ g.Cap = .ok (v, g) ∧
          IsLeastPowerOfTwoGe (2 ^ 64 - 1) v) ∧
      ¬ ∃ (ceilLog2 : Nat → Nat) (g : Filter) (v : Nat),
        New ceilLog2 (2 ^ 48 + 1) 3 false = .ok g ∧ g.Cap = .ok (v, g) ∧
          IsLeastPowerOfTwoGe (2 ^ 48 + 1) v := by
  refine ⟨by simp [New, toInt64, maxAlloc], by simp [New, toInt64, maxAlloc], ?_, ?_⟩
  · rintro ⟨L, g, v, hnew, hcap, _, hge, _⟩
    have := New_cap_le L _ 3 false g v hnew hcap
    omega
  · rintro ⟨L, g, v, hnew, hcap, _, hge, _⟩
    have := New_cap_le L _ 3 false g v hnew hcap
    omega

theorem orKeys_spec : ∀ (as bs : List Nat), as.length = bs.length →
    (∀ b ∈ as, b < 256) → (∀ b ∈ bs, b < 256) →
    ∃ ks, orKeys as bs = .ok ks ∧ ks.length = as.length ∧ (∀ b ∈ ks, b < 256) ∧
      ∀ i, ks.getD i 0 = as.getD i 0 ||| bs.getD i 0 := by
  intro as
  induction as with
  | nil =>
    intro bs hl _ _
    have : bs = [] := List.length_eq_zero.1 hl.symm
    subst this
    exact ⟨[], rfl, rfl, by simp, by simp⟩
  | cons a as ih =>
    intro bs hl ha hb
    cases bs with
    | nil => simp at hl
    | cons b bs =>
      have hl1 : as.length = bs.length := by simpa using hl
      obtain ⟨ks, e, hlen, hby, hget⟩ := ih bs hl1
        (fun x hx => ha x (List.mem_cons_of_mem _ hx))
        (fun x hx => hb x (List.mem_cons_of_mem _ hx))
      have ha0 : a < 2 ^ 8 := ha a (List.mem_cons_self _ _)
      have hb0 : b < 2 ^ 8 := hb b (List.mem_cons_self _ _)
      have hor : a ||| b < 2 ^ 8 := Nat.or_lt_two_pow ha0 hb0
      have hmod : (a ||| b) % 256 = a ||| b := Nat.mod_eq_of_lt hor
      refine ⟨(a ||| b) :: ks, ?_, by simp [hlen], ?_, ?_⟩
      · simp only [orKeys, e, bind, Except.bind, pure, Except.pure, hmod]
      · intro x hx
        rcases List.mem_cons.1 hx with h | h
        · rw [h]; exact hor
        · exact hby x h
      · intro i
        cases i with
        | zero => simp
        | succ j => simpa using hget j

theorem merge_ok {f g : Filter} (wf : WellFormed f) (wg : WellFormed g)
    (hm : f.m = g.m) (hk : f.k = g.k) (hc : g.concurrent = false) :
    ∃ ks, f.MergeInPlace g = .ok { err := none, f := { f with keys := ks }, g := g } ∧
      ks.length = f.keys.length ∧ (∀ b ∈ ks, b < 256) ∧
      ∀ i, ks.getD i 0 = f.keys.getD i 0 ||| g.keys.getD i 0 := by
  have hl : f.keys.length = g.keys.length := by rw [wf.2.1, wg.2.1, hm]
  obtain ⟨ks, e, hlen, hby, hget⟩ := orKeys_spec f.keys g.keys hl wf.2.2.1 wg.2.2.1
  refine ⟨ks, ?_, hlen, hby, hget⟩
  simp only [Filter.MergeInPlace, hm, hk, hc, ne_eq, not_true_eq_false, if_false,
    acquire_ok wf, e, bind, Except.bind, pure, Except.pure, Bool.false_eq_true]

theorem covers_of_test {sum128 : List Nat → Nat × Nat} {f : Filter} (wf : WellFormed f)
    {x : List Nat} (h : f.Test sum128 x = .ok (true, f)) : f.Covers sum128 x := by
  obtain ⟨r, hr, hiff⟩ := Test_spec sum128 wf x
  rw [hr] at h
  injection h with h
  have : r = true := congrArg Prod.fst h
  exact hiff.1 this

theorem test_of_covers {sum128 : List Nat → Nat × Nat} {f : Filter} (wf : WellFormed f)
    {x : List Nat} (h : f.Covers sum128 x) : f.Test sum128 x = .ok (true, f) := by
  obtain ⟨r, hr, hiff⟩ := Test_spec sum128 wf x
  have : r = true := hiff.2 h
  subst this
  exact hr

/-- C6 (merge monotonicity): for well-formed filters `A` and `B` with equal
`m` and equal `k`, `B` not concurrent, `A.MergeInPlace(B)` returns no error,
and every key for which `A.Test` or `B.Test` was true before the merge tests
true on `A` after it. -/
theorem C6_merge_monotone (sum128 : List Nat → Nat × Nat) (A B : Filter)
    (wA : WellFormed A) (wB : WellFormed B) (hm : A.m = B.m) (hk : A.k = B.k)
    (hc : B.concurrent = false) :
    ∃ r, A.MergeInPlace B = .ok r ∧ r.err = none ∧
      ∀ x, (A.Test sum128 x = .ok (true, A) ∨ B.Test sum128 x = .ok (true, B)) →
        r.f.Test sum128 x = .ok (true, r.f) := by
  obtain ⟨ks, e, hlen, hby, hget⟩ := merge_ok wA wB hm hk hc
  have wr : WellFormed { A with keys := ks } := wf_keys wA hlen hby
  refine ⟨_, e, rfl, ?_⟩
  intro x hx
  apply test_of_covers wr
  intro i hi
  have hbit : ∀ s b, Filter.bit { A with keys := ks } s b = (A.bit s b || B.bit s b) := by
    intro s b
    simp only [Filter.bit, hget s, Nat.testBit_or]
  rw [hbit]
  rcases hx with h | h
  · have := covers_of_test wA h i hi
    rw [probe_of_m_eq sum128 (f := A) (g := { A with keys := ks }) rfl x i, this]
    rfl
  · have := covers_of_test wB h i (hk ▸ hi)
    rw [probe_of_m_eq sum128 (f := B) (g := { A with keys := ks }) hm x i, this]
    exact Bool.or_true _

/-- C6 at a concrete input. -/
theorem C6_merge_monotone_witness :
    (WellFormed demoFilter ∧ WellFormed demoFilter2 ∧ demoFilter.m = demoFilter2.m ∧
        demoFilter.k = demoFilter2.k ∧ demoFilter2.concurrent = false) ∧
      ∃ r, demoFilter.MergeInPlace demoFilter2 = .ok r ∧ r.err = none ∧
        ∀ x, (demoFilter.Test demoSum128 x = .ok (true, demoFilter) ∨
            demoFilter2.Test demoSum128 x = .ok (true, demoFilter2)) →
          r.f.Test demoSum128 x = .ok (true, r.f) :=
  ⟨⟨by decide, by decide, rfl, rfl, rfl⟩,
    C6_merge_monotone demoSum128 demoFilter demoFilter2 (by decide) (by decide) rfl rfl rfl⟩

theorem merge_error_iff (A B : Filter) :
    ((∃ r e, A.MergeInPlace B = .ok r ∧ r.err = some e) ↔
        (A.m ≠ B.m ∨ A.k ≠ B.k ∨ B.concurrent = true)) ∧
      ∀ r e, A.MergeInPlace B = .ok r → r.err = some e → r.f = A ∧ r.g = B := by
  by_cases hm : A.m = B.m
  · by_cases hk : A.k = B.k
    · cases hc : B.concurrent with
      | true =>
        have e : A.MergeInPlace B = .ok
            { err := some "merging concurrent filter is not support", f := A, g := B } := by
          simp [Filter.MergeInPlace, hm, hk, hc]
        refine ⟨⟨fun _ => Or.inr (Or.inr rfl), fun _ => ⟨_, _, e, rfl⟩⟩, ?_⟩
        intro r _ hr _
        rw [e] at hr
        injection hr with hr
        subst hr
        exact ⟨rfl, rfl⟩
      | false =>
        have e : A.MergeInPlace B = (do
            A.acquire
            let keys ← orKeys A.keys B.keys
            pure { err := none, f := { A with keys := keys }, g := B }) := by
          simp [Filter.MergeInPlace, hm, hk, hc]
        have noerr : ∀ r e', A.MergeInPlace B = .ok r → r.err = some e' → False := by
          intro r e' hr he
          rw [e] at hr
          simp only [bind, Except.bind, pure, Except.pure] at hr
          cases ha : A.acquire with
          | error x => rw [ha] at hr; exact Except.noConfusion hr
          | ok u =>
            rw [ha] at hr
            cases ho : orKeys A.keys B.keys with
            | error x => rw [ho] at hr; exact Except.noConfusion hr
            | ok ks =>
              rw [ho] at hr
              injection hr with hr
              rw [← hr] at he
              exact Option.noConfusion he
        refine ⟨⟨?_, ?_⟩, ?_⟩
        · rintro ⟨r, e', hr, he⟩
          exact (noerr r e' hr he).elim
        · rintro (h | h | h)
          · exact (h hm).elim
          · exact (h hk).elim
          · exact Bool.noConfusion h
        · intro r e' hr he
          exact (noerr r e' hr he).elim
    · have e : A.MergeInPlace B = .ok
          { err := some (errorfDontMatch "k" A.m B.m), f := A, g := B } := by
        simp [Filter.MergeInPlace, hm, hk]
      refine ⟨⟨fun _ => Or.inr (Or.inl hk), fun _ => ⟨_, _, e, rfl⟩⟩, ?_⟩
      intro r _ hr _
      rw [e] at hr
      injection hr with hr
      subst hr
      exact ⟨rfl, rfl⟩
  · have e : A.MergeInPlace B = .ok
        { err := some (errorfDontMatch "m" A.m B.m), f := A, g := B } := by
      simp [Filter.MergeInPlace, hm]
    refine ⟨⟨fun _ => Or.inl hm, fun _ => ⟨_, _, e, rfl⟩⟩, ?_⟩
    intro r _ hr _
    rw [e] at hr
    injection hr with hr
    subst hr
    exact ⟨rfl, rfl⟩

/-- C7 (merge incompatibility rejected): `A.MergeInPlace(B)` returns an error
exactly when the `m` differ, or the `k` differ, or `B` is concurrent; and
whenever it returns an error both filters are exactly as before the call. -/
theorem C7_merge_rejects_incompatible (A B : Filter) :
    ((∃ r e, A.MergeInPlace B = .ok r ∧ r.err = some e) ↔
        (A.m ≠ B.m ∨ A.k ≠ B.k ∨ B.concurrent = true)) ∧
      ∀ r e, A.MergeInPlace B = .ok r → r.err = some e → r.f = A ∧ r.g = B :=
  merge_error_iff A B

/-- C8 (merge is a bytewise OR that touches nothing else): when
`A.MergeInPlace(B)` on well-formed filters returns without error, byte `i`
of `A` afterwards is the old byte `i` of `A` OR byte `i` of `B` for every
`i < m`; the storage length, `n`, `m`, `k` and the other fields of `A` are
unchanged, and `B` is unchanged. -/
theorem C8_merge_is_bytewise_or (A B : Filter) (wA : WellFormed A) (wB : WellFormed B)
    (r : MergeResult) (h : A.MergeInPlace B = .ok r) (hs : r.err = none) :
    (∀ i, i < A.m → r.f.keys[i]? = some (A.keys.getD i 0 ||| B.keys.getD i 0)) ∧
      r.f.keys.length = A.keys.length ∧ r.f.n = A.n ∧ r.f.m = A.m ∧ r.f.k = A.k ∧
      r.f.log2m = A.log2m ∧ r.f.concurrent = A.concurrent ∧ r.f.lock = A.lock ∧
      r.g = B := by
  have c7 := merge_error_iff A B
  have hcond : ¬ (A.m ≠ B.m ∨ A.k ≠ B.k ∨ B.concurrent = true) := by
    intro hc
    obtain ⟨r', e', hr', he'⟩ := c7.1.2 hc
    rw [h] at hr'
    injection hr' with hr'
    rw [← hr', hs] at he'
    exact Option.noConfusion he'
  have hm : A.m = B.m := by
    by_contra hne; exact hcond (Or.inl hne)
  have hk : A.k = B.k := by
    by_contra hne; exact hcond (Or.inr (Or.inl hne))
  have hc : B.concurrent = false := by
    cases hb : B.concurrent with
    | false => rfl
    | true => exact (hcond (Or.inr (Or.inr hb))).elim
  obtain ⟨ks, e, hlen, _, hget⟩ := merge_ok wA wB hm hk hc
  rw [h] at e
  injection e with e
  subst e
  refine ⟨?_, hlen, rfl, rfl, rfl, rfl, rfl, rfl, rfl⟩
  intro i hi
  have hi2 : i < ks.length := by rw [hlen, wA.2.1]; exact hi
  show ks[i]? = _
  rw [List.getElem?_eq_getElem hi2, ← hget i, List.getD_eq_getElem _ _ hi2]

/-- C8 at a concrete input. -/
theorem C8_merge_is_bytewise_or_witness :
    (WellFormed demoFilter2 ∧ WellFormed demoFilterAdded ∧
        demoFilter2.MergeInPlace demoFilterAdded = .ok
          { err := none, f := { demoFilter2 with keys := [5, 0, 128, 200] },
            g := demoFilterAdded }) ∧
      (∀ i, i < demoFilter2.m → ({ demoFilter2 with keys := [5, 0, 128, 200] } : Filter).keys[i]? =
        some (demoFilter2.keys.getD i 0 ||| demoFilterAdded.keys.getD i 0)) ∧
      ({ demoFilter2 with keys := [5, 0, 128, 200] } : Filter).keys.length =
        demoFilter2.keys.length ∧
      ({ demoFilter2 with keys := [5, 0, 128, 200] } : Filter).n = demoFilter2.n :=
  have h := C8_merge_is_bytewise_or demoFilter2 demoFilterAdded (by decide) (by decide)
    { err := none, f := { demoFilter2 with keys := [5, 0, 128, 200] }, g := demoFilterAdded }
    rfl rfl
  ⟨⟨by decide, by decide, rfl⟩, h.1, h.2.1, h.2.2.1⟩

theorem foldlM_Add_eq_batchStep (sum128 : List Nat → Nat × Nat) :
    ∀ (S : List (List Nat)) (f : Filter), WellFormed f →
      S.foldlM (fun f x => Filter.Add sum128 f x) f = S.foldlM (Filter.batchStep sum128) f := by
  intro S
  induction S with
  | nil => intro f _; rfl
  | cons x S ih =>
    intro f wf
    obtain ⟨g, e, wg, _⟩ := Add_grows sum128 wf x
    rw [List.foldlM_cons, List.foldlM_cons, batchStep_eq_Add sum128 wf, e]
    exact ih g wg

/-- C9 (batch equivalence): on a well-formed filter, for every finite sequence
of keys `S` (empty or with repeats), `AddBatch(S)` returns, and calling `Add`
on each element of `S` in order returns the same filter state (storage and
`n`, and every other field). -/
theorem C9_batch_equivalence (sum128 : List Nat → Nat × Nat) (f : Filter)
    (wf : WellFormed f) (S : List (List Nat)) :
    ∃ g, f.AddBatch sum128 S = .ok g ∧
      S.foldlM (fun f x => Filter.Add sum128 f x) f = .ok g := by
  obtain ⟨g, e, _⟩ := foldlM_batchStep_grows sum128 S f wf
  refine ⟨g, ?_, ?_⟩
  · simp only [Filter.AddBatch, acquire_ok wf, bind, Except.bind]
    exact e
  · rw [foldlM_Add_eq_batchStep sum128 S f wf]
    exact e

/-- C9 at a concrete input: a batch with a repeated key. -/
theorem C9_batch_equivalence_witness :
    WellFormed demoFilter ∧
      ∃ g, demoFilter.AddBatch demoSum128 [[1, 2, 3], [7], [1, 2, 3]] = .ok g ∧
        [[1, 2, 3], [7], [1, 2, 3]].foldlM (fun f x => Filter.Add demoSum128 f x) demoFilter
          = .ok g :=
  ⟨by decide, C9_batch_equivalence demoSum128 demoFilter (by decide) [[1, 2, 3], [7], [1, 2, 3]]⟩

theorem merge_frame (A B : Filter) (r : MergeResult) (h : A.MergeInPlace B = .ok r) :
    r.f.n = A.n ∧ r.f.m = A.m ∧ r.f.k = A.k ∧ r.g = B := by
  unfold Filter.MergeInPlace at h
  split at h
  · injection h with h; subst h; exact ⟨rfl, rfl, rfl, rfl⟩
  · split at h
    · injection h with h; subst h; exact ⟨rfl, rfl, rfl, rfl⟩
    · split at h
      · injection h with h; subst h; exact ⟨rfl, rfl, rfl, rfl⟩
      · simp only [bind, Except.bind, pure, Except.pure] at h
        cases ha : A.acquire with
        | error x => rw [ha] at h; exact Except.noConfusion h
        | ok u =>
          rw [ha] at h
          cases ho : orKeys A.keys B.keys with
          | error x => rw [ho] at h; exact Except.noConfusion h
          | ok ks =>
            rw [ho] at h
            injection h with h
            subst h
            exact ⟨rfl, rfl, rfl, rfl⟩

/-- C10 (the insertion counter is a raw call counter): on a well-formed filter
every `Add(x)` returns with `Size()` one larger than before modulo `2 ^ 64`,
whatever `x` is and whether or not a bit changed; `AddBatch(S)` returns with
`Size()` larger by `len(S)` modulo `2 ^ 64`; `Test`, `Cap`, `Size` and
`FalsePositiveRate` return the filter state they were given, and a
`MergeInPlace` that returns leaves `n` of the receiver and the whole argument
unchanged. -/
theorem C10_counter_is_call_counter {F : Type} (fl : Float64Ops F)
    (sum128 : List Nat → Nat × Nat) (f : Filter) (wf : WellFormed f) :
    (∀ x, ∃ g, f.Add sum128 x = .ok g ∧ g.Size = .ok ((f.n + 1) % 2 ^ 64, g)) ∧
      (∀ S : List (List Nat), ∃ g, f.AddBatch sum128 S = .ok g ∧
        g.Size = .ok ((f.n + S.length) % 2 ^ 64, g)) ∧
      (∀ x, ∃ r, f.Test sum128 x = .ok (r, f)) ∧
      (∀ B r, f.MergeInPlace B = .ok r → r.f.n = f.n ∧ r.g = B) ∧
      f.Cap = .ok (f.m, f) ∧ f.Size = .ok (f.n, f) ∧
      (∃ rate, f.FalsePositiveRate fl = .ok (rate, f)) := by
  refine ⟨?_, ?_, ?_, ?_, ?_, ?_, ?_⟩
  · intro x
    obtain ⟨g, e, wg, _, _, hn⟩ := Add_grows sum128 wf x
    refine ⟨g, e, ?_⟩
    simp only [Filter.Size, acquire_ok wg, bind, Except.bind, pure, Except.pure, hn]
  · intro S
    obtain ⟨g, e, wg, _, _, hn⟩ := AddBatch_grows sum128 wf S
    refine ⟨g, e, ?_⟩
    simp only [Filter.Size, acquire_ok wg, bind, Except.bind, pure, Except.pure, hn]
  · intro x
    obtain ⟨r, hr, _⟩ := Test_spec sum128 wf x
    exact ⟨r, hr⟩
  · intro B r h
    have := merge_frame f B r h
    exact ⟨this.1, this.2.2.2⟩
  · simp only [Filter.Cap, acquire_ok wf, bind, Except.bind, pure, Except.pure]
  · simp only [Filter.Size, acquire_ok wf, bind, Except.bind, pure, Except.pure]
  · refine ⟨fl.pow (fl.sub fl.one (fl.pow fl.e
      (fl.div (fl.neg (fl.ofUint64 (f.k * f.n % 2 ^ 64))) (fl.ofUint64 f.m))))
      (fl.ofUint64 f.k), ?_⟩
    simp only [Filter.FalsePositiveRate, acquire_ok wf, bind, Except.bind, pure, Except.pure]

/-- C10 at a concrete input: a key is added a second time. -/
theorem C10_counter_is_call_counter_witness :
    WellFormed demoFilterAdded ∧
      ∃ g, demoFilterAdded.Add demoSum128 [1, 2, 3] = .ok g ∧ g.Size = .ok (2, g) :=
  ⟨by decide,
    (C10_counter_is_call_counter demoFloat demoSum128 demoFilterAdded (by decide)).1 [1, 2, 3]⟩

theorem keys_eq_of_bits {ks ls : List Nat} (hl : ks.length = ls.length)
    (hb : ∀ s b, (ks.getD s 0).testBit b = (ls.getD s 0).testBit b) : ks = ls := by
  apply List.ext_getElem hl
  intro i h1 h2
  have := Nat.eq_of_testBit_eq (hb i)
  rwa [List.getD_eq_getElem _ _ h1, List.getD_eq_getElem _ _ h2] at this

theorem add_of_covers (sum128 : List Nat → Nat × Nat) {f : Filter} (wf : WellFormed f)
    {x : List Nat} (hc : f.Covers sum128 x) :
    f.Add sum128 x = .ok { f with n := (f.n + 1) % 2 ^ 64 } := by
  obtain ⟨ks, e, hlen, _, hbit⟩ := Add_spec sum128 wf x
  have hks : ks = f.keys := by
    apply keys_eq_of_bits hlen
    intro s b
    apply Bool.eq_iff_iff.2
    rw [hbit s b]
    constructor
    · rintro (h | ⟨i, hi, hp⟩)
      · exact h
      · have := hc i hi
        rw [hp] at this
        exact this
    · exact Or.inl
  rw [e, hks]

theorem test_n_irrelevant (sum128 : List Nat → Nat × Nat) {f : Filter} (wf : WellFormed f)
    (a : Nat) (ha : a < 2 ^ 64) (y : List Nat) :
    ∃ r, f.Test sum128 y = .ok (r, f) ∧
      Filter.Test sum128 { f with n := a } y = .ok (r, { f with n := a }) := by
  obtain ⟨r, hr, hiff⟩ := Test_spec sum128 wf y
  obtain ⟨r', hr', hiff'⟩ := Test_spec sum128 (wf_n wf ha) y
  have : r' = r := by
    apply Bool.eq_iff_iff.2
    rw [hiff, hiff']
    exact Iff.rfl
  subst this
  exact ⟨r', hr, hr'⟩

theorem reset_wf {f : Filter} (wf : WellFormed f) :
    WellFormed { f with keys := f.keys.map (fun b => b &&& 0), n := 0 } := by
  obtain ⟨w1, w2, _, w4, _, w6⟩ := wf
  refine ⟨w1, by simpa using w2, ?_, w4, by norm_num, w6⟩
  intro b hb
  obtain ⟨a, _, rfl⟩ := List.mem_map.1 hb
  rw [Nat.and_zero]
  decide

theorem merge_grows {A B : Filter} (wA : WellFormed A) (wB : WellFormed B) :
    ∃ r, A.MergeInPlace B = .ok r ∧ WellFormed r.f ∧ A.Grows r.f ∧ r.f.n = A.n := by
  by_cases hcond : A.m ≠ B.m ∨ A.k ≠ B.k ∨ B.concurrent = true
  · obtain ⟨r, e, hr, he⟩ := (merge_error_iff A B).1.2 hcond
    have hf := ((merge_error_iff A B).2 r e hr he).1
    refine ⟨r, hr, ?_, ?_, ?_⟩
    · rw [hf]; exact wA
    · rw [hf]; exact grows_refl A
    · rw [hf]
  · have hm : A.m = B.m := by
      by_contra hne; exact hcond (Or.inl hne)
    have hk : A.k = B.k := by
      by_contra hne; exact hcond (Or.inr (Or.inl hne))
    have hc : B.concurrent = false := by
      cases hb : B.concurrent with
      | false => rfl
      | true => exact (hcond (Or.inr (Or.inr hb))).elim
    obtain ⟨ks, e, hlen, hby, hget⟩ := merge_ok wA wB hm hk hc
    refine ⟨_, e, wf_keys wA hlen hby, ⟨rfl, rfl, rfl, rfl, rfl, hlen, ?_⟩, rfl⟩
    intro s b hb
    simp only [Filter.bit, hget s, Nat.testBit_or] at hb ⊢
    rw [hb]
    rfl

/-- Every call on a well-formed filter returns a well-formed filter with the
construction-time fields unchanged. -/
theorem perform_inv {F : Type} (fl : Float64Ops F) (sum128 : List Nat → Nat × Nat)
    {f : Filter} (wf : WellFormed f) (c : Call) (hc : c.ArgWellFormed) :
    ∃ g, f.perform fl sum128 c = .ok g ∧ WellFormed g ∧ g.m = f.m ∧ g.log2m = f.log2m ∧
      g.k = f.k ∧ g.concurrent = f.concurrent ∧ g.lock = f.lock ∧
      g.keys.length = f.keys.length ∧
      (c.isReset = false → ∀ s b, f.bit s b = true → g.bit s b = true) := by
  cases c with
  | add x =>
    obtain ⟨g, e, wg, gr, _⟩ := Add_grows sum128 wf x
    exact ⟨g, e, wg, gr.1, gr.2.2.2.2.1, gr.2.1, gr.2.2.2.1, gr.2.2.1, gr.2.2.2.2.2.1,
      fun _ => gr.2.2.2.2.2.2⟩
  | addBatch xs =>
    obtain ⟨g, e, wg, gr, _⟩ := AddBatch_grows sum128 wf xs
    exact ⟨g, e, wg, gr.1, gr.2.2.2.2.1, gr.2.1, gr.2.2.2.1, gr.2.2.1, gr.2.2.2.2.2.1,
      fun _ => gr.2.2.2.2.2.2⟩
  | test x =>
    obtain ⟨r, hr, _⟩ := Test_spec sum128 wf x
    refine ⟨f, ?_, wf, rfl, rfl, rfl, rfl, rfl, rfl, fun _ _ _ h => h⟩
    simp only [Filter.perform, hr, bind, Except.bind, pure, Except.pure]
  | reset =>
    refine ⟨_, reset_eq wf, reset_wf wf, rfl, rfl, rfl, rfl, rfl, by simp, ?_⟩
    intro h
    exact Bool.noConfusion h
  | merge B =>
    obtain ⟨r, e, wr, gr, _⟩ := merge_grows wf hc
    refine ⟨r.f, ?_, wr, gr.1, gr.2.2.2.2.1, gr.2.1, gr.2.2.2.1, gr.2.2.1, gr.2.2.2.2.2.1,
      fun _ => gr.2.2.2.2.2.2⟩
    simp only [Filter.perform, e, bind, Except.bind, pure, Except.pure]
  | cap =>
    refine ⟨f, ?_, wf, rfl, rfl, rfl, rfl, rfl, rfl, fun _ _ _ h => h⟩
    simp only [Filter.perform, Filter.Cap, acquire_ok wf, bind, Except.bind, pure, Except.pure]
  | size =>
    refine ⟨f, ?_, wf, rfl, rfl, rfl, rfl, rfl, rfl, fun _ _ _ h => h⟩
    simp only [Filter.perform, Filter.Size, acquire_ok wf, bind, Except.bind, pure, Except.pure]
  | falsePositiveRate =>
    refine ⟨f, ?_, wf, rfl, rfl, rfl, rfl, rfl, rfl, fun _ _ _ h => h⟩
    simp only [Filter.perform, Filter.FalsePositiveRate, acquire_ok wf, bind, Except.bind,
      pure, Except.pure]

theorem performAll_inv {F : Type} (fl : Float64Ops F) (sum128 : List Nat → Nat × Nat) :
    ∀ (cs : List Call) (f : Filter), WellFormed f → (∀ c ∈ cs, c.ArgWellFormed) →
      ∃ g, f.performAll fl sum128 cs = .ok g ∧ WellFormed g ∧ g.m = f.m ∧
        g.log2m = f.log2m ∧ g.k = f.k ∧ g.concurrent = f.concurrent ∧ g.lock = f.lock ∧
        g.keys.length = f.keys.length ∧
        ((∀ c ∈ cs, c.isReset = false) → ∀ s b, f.bit s b = true → g.bit s b = true) := by
  intro cs
  induction cs with
  | nil =>
    intro f wf _
    exact ⟨f, rfl, wf, rfl, rfl, rfl, rfl, rfl, rfl, fun _ _ _ h => h⟩
  | cons c cs ih =>
    intro f wf hargs
    obtain ⟨g1, e1, w1, a1, a2, a3, a4, a5, a6, a7⟩ :=
      perform_inv fl sum128 wf c (hargs c (List.mem_cons_self _ _))
    obtain ⟨g, e2, w2, b1, b2, b3, b4, b5, b6, b7⟩ :=
      ih g1 w1 (fun c' hc' => hargs c' (List.mem_cons_of_mem _ hc'))
    refine ⟨g, ?_, w2, b1.trans a1, b2.trans a2, b3.trans a3, b4.trans a4, b5.trans a5,
      b6.trans a6, ?_⟩
    · simp only [Filter.performAll, List.foldlM_cons, e1, bind, Except.bind]
      exact e2
    · intro hno s b hb
      exact b7 (fun c' hc' => hno c' (List.mem_cons_of_mem _ hc')) s b
        (a7 (hno c (List.mem_cons_self _ _)) s b hb)

theorem perform_covers {F : Type} (fl : Float64Ops F) (sum128 : List Nat → Nat × Nat)
    {f : Filter} (wf : WellFormed f) (c : Call) (hc : c.ArgWellFormed)
    (hr : c.isReset = false) :
    ∃ g, f.perform fl sum128 c = .ok g ∧ WellFormed g ∧ f.Grows g ∧
      ∀ x ∈ c.inserted, g.Covers sum128 x := by
  obtain ⟨g, e, wg, h1, h2, h3, h4, h5, h6, h7⟩ := perform_inv fl sum128 wf c hc
  refine ⟨g, e, wg, ⟨h1, h3, h5, h4, h2, h6, h7 hr⟩, ?_⟩
  cases c with
  | add x =>
    obtain ⟨g', e', _, _, cv, _⟩ := Add_grows sum128 wf x
    have hg : g' = g := by
      have := e'.symm.trans e
      injection this
    subst hg
    intro y hy
    simp only [Call.inserted, List.mem_singleton] at hy
    rw [hy]
    exact cv
  | addBatch xs =>
    obtain ⟨g', e', _, _, cv, _⟩ := AddBatch_grows sum128 wf xs
    have hg : g' = g := by
      have := e'.symm.trans e
      injection this
    subst hg
    exact cv
  | test x => intro y hy; simp [Call.inserted] at hy
  | reset => intro y hy; simp [Call.inserted] at hy
  | merge B => intro y hy; simp [Call.inserted] at hy
  | cap => intro y hy; simp [Call.inserted] at hy
  | size => intro y hy; simp [Call.inserted] at hy
  | falsePositiveRate => intro y hy; simp [Call.inserted] at hy

theorem performAll_covers {F : Type} (fl : Float64Ops F) (sum128 : List Nat → Nat × Nat) :
    ∀ (cs : List Call) (f : Filter), WellFormed f → (∀ c ∈ cs, c.ArgWellFormed) →
      (∀ c ∈ cs, c.isReset = false) →
      ∃ g, f.performAll fl sum128 cs = .ok g ∧ WellFormed g ∧ f.Grows g ∧
        ∀ c ∈ cs, ∀ x ∈ c.inserted, g.Covers sum128 x := by
  intro cs
  induction cs with
  | nil =>
    intro f wf _ _
    exact ⟨f, rfl, wf, grows_refl f, by simp⟩
  | cons c cs ih =>
    intro f wf hargs hno
    obtain ⟨g1, e1, w1, gr1, cv1⟩ := perform_covers fl sum128 wf c
      (hargs c (List.mem_cons_self _ _)) (hno c (List.mem_cons_self _ _))
    obtain ⟨g, e2, w2, gr2, cv2⟩ := ih g1 w1
      (fun c' hc' => hargs c' (List.mem_cons_of_mem _ hc'))
      (fun c' hc' => hno c' (List.mem_cons_of_mem _ hc'))
    refine ⟨g, ?_, w2, grows_trans gr1 gr2, ?_⟩
    · simp only [Filter.performAll, List.foldlM_cons, e1, bind, Except.bind]
      exact e2
    · intro o ho x hx
      rcases List.mem_cons.1 ho with h | h
      · subst h; exact covers_mono (cv1 x hx) gr2
      · exact cv2 o h x hx

/-- C11 (idempotent bit-setting): on a well-formed filter, after any sequence
of calls with no `Reset` in it (`Add`, `AddBatch`, `Test`, `MergeInPlace` with
well-formed arguments, `Cap`, `Size`, `FalsePositiveRate`) one of which
inserted `x`, a further `Add(x)` returns the same filter with only `n`
advanced: the storage is bit for bit what it was, and `Test(y)` gives the
same answer before and after for every key `y`. -/
theorem C11_readd_changes_only_counter {F : Type} (fl : Float64Ops F)
    (sum128 : List Nat → Nat × Nat) (f : Filter) (wf : WellFormed f) (cs : List Call)
    (hargs : ∀ c ∈ cs, c.ArgWellFormed) (hno : ∀ c ∈ cs, c.isReset = false)
    (x : List Nat) (hx : ∃ c ∈ cs, x ∈ c.inserted) :
    ∃ g, f.performAll fl sum128 cs = .ok g ∧
      g.Add sum128 x = .ok { g with n := (g.n + 1) % 2 ^ 64 } ∧
      ∀ y, ∃ r, g.Test sum128 y = .ok (r, g) ∧
        Filter.Test sum128 { g with n := (g.n + 1) % 2 ^ 64 } y =
          .ok (r, { g with n := (g.n + 1) % 2 ^ 64 }) := by
  obtain ⟨g, e, wg, _, cv⟩ := performAll_covers fl sum128 cs f wf hargs hno
  obtain ⟨c, hc, hmem⟩ := hx
  exact ⟨g, e, add_of_covers sum128 wg (cv c hc x hmem),
    fun y => test_n_irrelevant sum128 wg _ (Nat.mod_lt _ (by norm_num)) y⟩

/-- C11 at a concrete input: `Add([1, 2, 3])`, then an accepted merge, a
batch and a test, then `Add([1, 2, 3])` again. -/
theorem C11_readd_changes_only_counter_witness :
    (WellFormed demoFilter ∧
        (∀ c ∈ [Call.add [1, 2, 3], Call.merge demoFilter2, Call.addBatch [[7], [8]],
          Call.test [9]], c.ArgWellFormed) ∧
        (∀ c ∈ [Call.add [1, 2, 3], Call.merge demoFilter2, Call.addBatch [[7], [8]],
          Call.test [9]], c.isReset = false)) ∧
      ∃ g, demoFilter.performAll demoFloat demoSum128
          [Call.add [1, 2, 3], Call.merge demoFilter2, Call.addBatch [[7], [8]],
            Call.test [9]] = .ok g ∧
        g.Add demoSum128 [1, 2, 3] = .ok { g with n := (g.n + 1) % 2 ^ 64 } ∧
        ∀ y, ∃ r, g.Test demoSum128 y = .ok (r, g) ∧
          Filter.Test demoSum128 { g with n := (g.n + 1) % 2 ^ 64 } y =
            .ok (r, { g with n := (g.n + 1) % 2 ^ 64 }) :=
  have ha : ∀ c ∈ [Call.add [1, 2, 3], Call.merge demoFilter2, Call.addBatch [[7], [8]],
      Call.test [9]], c.ArgWellFormed := by
    intro c hc
    simp only [List.mem_cons, List.mem_singleton, List.not_mem_nil, or_false] at hc
    rcases hc with rfl | rfl | rfl | rfl
    · trivial
    · show WellFormed demoFilter2
      decide
    · trivial
    · trivial
  have hr : ∀ c ∈ [Call.add [1, 2, 3], Call.merge demoFilter2, Call.addBatch [[7], [8]],
      Call.test [9]], c.isReset = false := by
    intro c hc
    simp only [List.mem_cons, List.mem_singleton, List.not_mem_nil, or_false] at hc
    rcases hc with rfl | rfl | rfl | rfl <;> rfl
  ⟨⟨by decide, ha, hr⟩,
    C11_readd_changes_only_counter demoFloat demoSum128 demoFilter (by decide) _ ha hr
      [1, 2, 3] ⟨Call.add [1, 2, 3], by simp, by simp [Call.inserted]⟩⟩

/-- C12 (set bits are monotonic): on a well-formed filter, after any sequence
of calls that contains no `Reset` (`Add`, `AddBatch`, `Test`, `Cap`, `Size`,
`FalsePositiveRate`, and `MergeInPlace` with well-formed arguments, accepted
or rejected) the sequence returns, every bit that was set is still set, and
every key for which `Test` was true still tests true. -/
theorem C12_set_bits_monotone {F : Type} (fl : Float64Ops F)
    (sum128 : List Nat → Nat × Nat) (f : Filter) (wf : WellFormed f) (cs : List Call)
    (hargs : ∀ c ∈ cs, c.ArgWellFormed) (hno : ∀ c ∈ cs, c.isReset = false) :
    ∃ g, f.performAll fl sum128 cs = .ok g ∧
      (∀ s b, f.bit s b = true → g.bit s b = true) ∧
      ∀ x, f.Test sum128 x = .ok (true, f) → g.Test sum128 x = .ok (true, g) := by
  obtain ⟨g, e, wg, h1, h2, h3, h4, h5, h6, h7⟩ := performAll_inv fl sum128 cs f wf hargs
  refine ⟨g, e, h7 hno, ?_⟩
  intro x hx
  have gr : f.Grows g := ⟨h1, h3, h5, h4, h2, h6, h7 hno⟩
  exact test_of_covers wg (covers_mono (covers_of_test wf hx) gr)

/-- C12 at a concrete input: a test, an accepted merge, a rejected merge and
an insertion after `Add([1, 2, 3])`. -/
theorem C12_set_bits_monotone_witness :
    (WellFormed demoFilterAdded ∧
        (∀ c ∈ [Call.test [9], Call.merge demoFilter2, Call.merge { demoFilter2 with k := 5 },
          Call.add [7]], c.ArgWellFormed) ∧
        (∀ c ∈ [Call.test [9], Call.merge demoFilter2, Call.merge { demoFilter2 with k := 5 },
          Call.add [7]], c.isReset = false)) ∧
      ∃ g, demoFilterAdded.performAll demoFloat demoSum128
          [Call.test [9], Call.merge demoFilter2, Call.merge { demoFilter2 with k := 5 },
            Call.add [7]] = .ok g ∧
        (∀ s b, demoFilterAdded.bit s b = true → g.bit s b = true) ∧
        ∀ x, demoFilterAdded.Test demoSum128 x = .ok (true, demoFilterAdded) →
          g.Test demoSum128 x = .ok (true, g) :=
  have ha : ∀ c ∈ [Call.test [9], Call.merge demoFilter2,
      Call.merge { demoFilter2 with k := 5 }, Call.add [7]], c.ArgWellFormed := by
    intro c hc
    simp only [List.mem_cons, List.mem_singleton, List.not_mem_nil, or_false] at hc
    rcases hc with rfl | rfl | rfl | rfl
    · trivial
    · show WellFormed demoFilter2
      decide
    · show WellFormed { demoFilter2 with k := 5 }
      decide
    · trivial
  have hr : ∀ c ∈ [Call.test [9], Call.merge demoFilter2,
      Call.merge { demoFilter2 with k := 5 }, Call.add [7]], c.isReset = false := by
    intro c hc
    simp only [List.mem_cons, List.mem_singleton, List.not_mem_nil, or_false] at hc
    rcases hc with rfl | rfl | rfl | rfl <;> rfl
  ⟨⟨by decide, ha, hr⟩,
    C12_set_bits_monotone demoFloat demoSum128 demoFilterAdded (by decide) _ ha hr⟩

theorem New_wf (ceilLog2 : Nat → Nat) (c k : Nat) (race : Bool) (hL : ceilLog2 c ≤ 48)
    (hk : k < 2 ^ 64) :
    ∃ f, New ceilLog2 c k race = .ok f ∧ WellFormed f ∧ f.m = 2 ^ ceilLog2 c ∧
      f.log2m = ceilLog2 c ∧ f.k = k ∧ f.concurrent = race ∧ f.n = 0 ∧
      ∀ b ∈ f.keys, b = 0 := by
  refine ⟨_, New_ok ceilLog2 c k race hL, ⟨⟨ceilLog2 c, by omega, rfl⟩, by simp, ?_, hk,
    by norm_num, fun h => h⟩, rfl, rfl, rfl, rfl, rfl, ?_⟩
  · intro b hb
    rw [List.eq_of_mem_replicate hb]
    decide
  · intro b hb
    exact List.eq_of_mem_replicate hb

/-- C16 (structural invariant): when the library value `ceilLog2 c` is the
exact ceiling of the base-2 logarithm of `c`, `1 ≤ c ≤ 2 ^ 32` and `k` is a
`uint64`, `New(c, k, race)` returns a well-formed filter (`m` a power of two,
`m` bytes of storage); every sequence of operations on it (with well-formed
`MergeInPlace` arguments) returns without a panic, so without an index out
of range, in a well-formed filter whose `m`, `log2m`, `k`, concurrency flag
and storage length are those of construction; and each single operation
preserves well-formedness and those fields from any well-formed state. -/
theorem C16_structural_invariant {F : Type} (fl : Float64Ops F)
    (sum128 : List Nat → Nat × Nat) (ceilLog2 : Nat → Nat) (c k : Nat) (race : Bool)
    (_ : 1 ≤ c) (hmax : c ≤ 2 ^ 32) (hk : k < 2 ^ 64)
    (hexact : ceilLog2 c = Nat.clog 2 c) :
    (∃ f, New ceilLog2 c k race = .ok f ∧ WellFormed f ∧
      ∀ cs : List Call, (∀ a ∈ cs, a.ArgWellFormed) →
        ∃ g, f.performAll fl sum128 cs = .ok g ∧ WellFormed g ∧ g.m = f.m ∧
          g.log2m = f.log2m ∧ g.k = f.k ∧ g.concurrent = f.concurrent ∧
          g.keys.length = f.keys.length) ∧
      ∀ f : Filter, WellFormed f → ∀ a : Call, a.ArgWellFormed →
        ∃ g, f.perform fl sum128 a = .ok g ∧ WellFormed g ∧ g.m = f.m ∧
          g.log2m = f.log2m ∧ g.k = f.k ∧ g.concurrent = f.concurrent ∧
          g.keys.length = f.keys.length := by
  have hL : ceilLog2 c ≤ 48 := by
    rw [hexact]
    have : Nat.clog 2 c ≤ 32 := (Nat.le_pow_iff_clog_le (by decide)).1 hmax
    omega
  obtain ⟨f, e, wf, _⟩ := New_wf ceilLog2 c k race hL hk
  refine ⟨⟨f, e, wf, ?_⟩, ?_⟩
  · intro cs hargs
    obtain ⟨g, e2, wg, h1, h2, h3, h4, _, h6, _⟩ := performAll_inv fl sum128 cs f wf hargs
    exact ⟨g, e2, wg, h1, h2, h3, h4, h6⟩
  · intro f' wf' a ha
    obtain ⟨g, e2, wg, h1, h2, h3, h4, _, h6, _⟩ := perform_inv fl sum128 wf' a ha
    exact ⟨g, e2, wg, h1, h2, h3, h4, h6⟩

/-- C16 at a concrete input: `New(1024, 3, false)` of the tests. -/
theorem C16_structural_invariant_witness :
    (1 ≤ 1024 ∧ 1024 ≤ 2 ^ 32 ∧ 3 < 2 ^ 64 ∧ Nat.clog 2 1024 = Nat.clog 2 1024) ∧
      ∃ f, New (Nat.clog 2) 1024 3 false = .ok f ∧ WellFormed f ∧
        ∀ cs : List Call, (∀ a ∈ cs, a.ArgWellFormed) →
          ∃ g, f.performAll demoFloat demoSum128 cs = .ok g ∧ WellFormed g ∧ g.m = f.m ∧
            g.log2m = f.log2m ∧ g.k = f.k ∧ g.concurrent = f.concurrent ∧
            g.keys.length = f.keys.length :=
  ⟨⟨by decide, by decide, by decide, rfl⟩,
    (C16_structural_invariant demoFloat demoSum128 (Nat.clog 2) 1024 3 false (by decide)
      (by decide) (by decide) rfl).1⟩

theorem and_three_eq_mod (x : Nat) : x &&& 3 = x % 4 :=
  Nat.and_pow_two_sub_one_eq_mod x 2

theorem and_seven_eq_mod (x : Nat) : x &&& 7 = x % 8 :=
  Nat.and_pow_two_sub_one_eq_mod x 3

/-- C17 (probe derivation): for a four-element `h` and a 64-bit `i`,
`location(h, i)` returns (no index is out of range) the value
`(h[i mod 2] + i * h[j]) mod 2 ^ 64`, where `j = 2` when `i mod 4` is `0` or
`3` and `j = 3` when `i mod 4` is `1` or `2`; both indices are below `4`. -/
theorem C17_probe_derivation (h : List Nat) (i : Nat) (hh : h.length = 4)
    (_ : i < 2 ^ 64) :
    location h i = .ok ((h.getD (i % 2) 0 +
        i * h.getD (if i % 4 = 0 ∨ i % 4 = 3 then 2 else 3) 0) % 2 ^ 64) ∧
      i % 2 < h.length ∧ (if i % 4 = 0 ∨ i % 4 = 3 then 2 else 3) < h.length := by
  have e1 : i &&& 1 = i % 2 := Nat.and_one_is_mod i
  have e2 : 2 + (((i + (i &&& 1)) % 2 ^ 64) &&& 3) / 2 =
      if i % 4 = 0 ∨ i % 4 = 3 then 2 else 3 := by
    rw [and_three_eq_mod, e1]
    split_ifs with hc <;> omega
  have h1 : i % 2 < h.length := by omega
  have h2 : (if i % 4 = 0 ∨ i % 4 = 3 then 2 else 3) < h.length := by
    split_ifs <;> omega
  refine ⟨?_, h1, h2⟩
  unfold location
  rw [e2, e1, index_ok h1, index_ok h2]
  simp only [bind, Except.bind, pure, Except.pure, Nat.add_mod_mod]

/-- C17 at the largest probe index, where `i + (i & 1)` wraps to `0`: the
base is `h[1]` and the multiplier `h[2]`. -/
theorem C17_probe_derivation_witness :
    (([10, 20, 30, 40] : List Nat).length = 4 ∧ 2 ^ 64 - 1 < 2 ^ 64) ∧
      location [10, 20, 30, 40] (2 ^ 64 - 1) =
        .ok ((([10, 20, 30, 40] : List Nat).getD ((2 ^ 64 - 1) % 2) 0 +
          (2 ^ 64 - 1) * ([10, 20, 30, 40] : List Nat).getD
            (if (2 ^ 64 - 1) % 4 = 0 ∨ (2 ^ 64 - 1) % 4 = 3 then 2 else 3) 0) % 2 ^ 64) :=
  ⟨⟨rfl, by norm_num⟩, (C17_probe_derivation [10, 20, 30, 40] (2 ^ 64 - 1) rfl (by norm_num)).1⟩

theorem method_location_eq (f : Filter) (p : Nat) (hp : p < 64) (hm : f.m = 2 ^ p)
    (pos : Nat) : f.location pos = ((pos / 8) % f.m, pos % 8) := by
  have hlt : 2 ^ p < 2 ^ 64 := Nat.pow_lt_pow_right (by decide) hp
  have hpos : 0 < 2 ^ p := Nat.pos_pow_of_pos p (by decide)
  have hmask : (f.m + 2 ^ 64 - 1) % 2 ^ 64 = 2 ^ p - 1 := by
    rw [hm]
    have : 2 ^ p + 2 ^ 64 - 1 = (2 ^ p - 1) + 2 ^ 64 := by omega
    rw [this, Nat.add_mod_right, Nat.mod_eq_of_lt (by omega)]
  unfold Filter.location
  rw [hmask]
  simp only [bitPerByte, mod7_eq, and_seven_eq_mod, Nat.and_pow_two_sub_one_eq_mod, hm]

theorem eight_mul_slot_add (m pos : Nat) :
    8 * ((pos / 8) % m) + pos % 8 = pos % (8 * m) := by
  rw [Nat.mod_mul]
  omega

/-- C18 (bit addressing): for `m = 2 ^ p` with `p ≤ 60` and a 64-bit position,
the method `location` returns a slot below `m` and an offset below `8` with
`8 * slot + offset = position mod (8 * m)`; two 64-bit positions address the
same bit exactly when they are congruent modulo `8 * m`; and every one of
the `8 * m` bits is addressed by some 64-bit position. -/
theorem C18_bit_addressing (f : Filter) (p : Nat) (hp : p ≤ 60) (hm : f.m = 2 ^ p)
    (pos : Nat) (_ : pos < 2 ^ 64) :
    (f.location pos).1 < f.m ∧ (f.location pos).2 < 8 ∧
      8 * (f.location pos).1 + (f.location pos).2 = pos % (8 * f.m) ∧
      (∀ pos', pos' < 2 ^ 64 →
        (f.location pos' = f.location pos ↔ pos' % (8 * f.m) = pos % (8 * f.m))) ∧
      ∀ slot off, slot < f.m → off < 8 →
        ∃ q, q < 2 ^ 64 ∧ f.location q = (slot, off) := by
  have hloc := method_location_eq f p (by omega) hm
  have hmpos : 0 < f.m := by rw [hm]; exact Nat.pos_pow_of_pos p (by decide)
  have hmle : f.m ≤ 2 ^ 60 := by rw [hm]; exact Nat.pow_le_pow_right (by decide) hp
  refine ⟨?_, ?_, ?_, ?_, ?_⟩
  · rw [hloc]; exact Nat.mod_lt _ hmpos
  · rw [hloc]; exact Nat.mod_lt _ (by decide)
  · rw [hloc]; exact eight_mul_slot_add f.m pos
  · intro pos' _
    rw [hloc, hloc, ← eight_mul_slot_add f.m pos', ← eight_mul_slot_add f.m pos,
      Prod.mk.injEq]
    have a1 := Nat.mod_lt pos' (show 0 < 8 by decide)
    have a2 := Nat.mod_lt pos (show 0 < 8 by decide)
    constructor
    · rintro ⟨h1, h2⟩
      rw [h1, h2]
    · intro h
      constructor <;> omega
  · intro slot off hs ho
    refine ⟨8 * slot + off, by omega, ?_⟩
    rw [hloc]
    have h1 : (8 * slot + off) / 8 = slot := by omega
    have h2 : (8 * slot + off) % 8 = off := by omega
    rw [h1, h2, Nat.mod_eq_of_lt hs]

/-- C18 at a concrete input: four bytes, position `45` wraps to bit `13`. -/
theorem C18_bit_addressing_witness :
    (2 ≤ 60 ∧ demoFilter.m = 2 ^ 2 ∧ 45 < 2 ^ 64) ∧
      (demoFilter.location 45).1 < demoFilter.m ∧ (demoFilter.location 45).2 < 8 ∧
      8 * (demoFilter.location 45).1 + (demoFilter.location 45).2 = 45 % (8 * demoFilter.m) :=
  have h := C18_bit_addressing demoFilter 2 (by decide) rfl 45 (by norm_num)
  ⟨⟨by decide, rfl, by norm_num⟩, h.1, h.2.1, h.2.2.1⟩

theorem foldlM_batchStep_zero_probes (sum128 : List Nat → Nat × Nat) :
    ∀ (S : List (List Nat)) (f : Filter), WellFormed f → f.k = 0 →
      S.foldlM (Filter.batchStep sum128) f = .ok { f with n := (f.n + S.length) % 2 ^ 64 } := by
  intro S
  induction S with
  | nil =>
    intro f wf _
    simp only [List.length_nil, Nat.add_zero, Nat.mod_eq_of_lt wf.2.2.2.2.1]
    rfl
  | cons x S ih =>
    intro f wf hk
    have hc : f.Covers sum128 x := by
      intro i hi
      rw [hk] at hi
      exact absurd hi (Nat.not_lt_zero i)
    rw [List.foldlM_cons, batchStep_eq_Add sum128 wf, add_of_covers sum128 wf hc]
    have wf1 : WellFormed { f with n := (f.n + 1) % 2 ^ 64 } :=
      wf_n wf (Nat.mod_lt _ (by norm_num))
    have := ih { f with n := (f.n + 1) % 2 ^ 64 } wf1 hk
    simp only [bind, Except.bind]
    rw [this]
    have e : ((f.n + 1) % 2 ^ 64 + S.length) % 2 ^ 64 = (f.n + (S.length + 1)) % 2 ^ 64 := by
      omega
    simp only [List.length_cons, e]

/-- C19 (zero probe count): on a well-formed filter with `k = 0`, `Test(x)`
returns `true` for every key, `Add` and `AddBatch` return the filter with the
storage untouched and only `n` advanced, `Test` is still `true` for every key
after `Reset`, and `New` builds such a filter when given `k = 0`. -/
theorem C19_zero_probe_count (sum128 : List Nat → Nat × Nat) (f : Filter)
    (wf : WellFormed f) (hk : f.k = 0) :
    (∀ x, f.Test sum128 x = .ok (true, f)) ∧
      (∀ x, f.Add sum128 x = .ok { f with n := (f.n + 1) % 2 ^ 64 }) ∧
      (∀ S : List (List Nat),
        f.AddBatch sum128 S = .ok { f with n := (f.n + S.length) % 2 ^ 64 }) ∧
      (∃ g, f.Reset = .ok g ∧ ∀ x, g.Test sum128 x = .ok (true, g)) ∧
      ∀ (ceilLog2 : Nat → Nat) (c : Nat) (race : Bool), ceilLog2 c ≤ 48 →
        ∃ g, New ceilLog2 c 0 race = .ok g ∧ g.k = 0 ∧
          ∀ x, g.Test sum128 x = .ok (true, g) := by
  have hcov : ∀ (g : Filter), g.k = 0 → ∀ x, g.Covers sum128 x := by
    intro g hg x i hi
    rw [hg] at hi
    exact absurd hi (Nat.not_lt_zero i)
  refine ⟨?_, ?_, ?_, ?_, ?_⟩
  · intro x
    exact test_of_covers wf (hcov f hk x)
  · intro x
    exact add_of_covers sum128 wf (hcov f hk x)
  · intro S
    simp only [Filter.AddBatch, acquire_ok wf, bind, Except.bind]
    exact foldlM_batchStep_zero_probes sum128 S f wf hk
  · refine ⟨_, reset_eq wf, ?_⟩
    intro x
    exact test_of_covers (reset_wf wf)
      (hcov { f with keys := f.keys.map (fun b => b &&& 0), n := 0 } hk x)
  · intro ceilLog2 c race hL
    obtain ⟨g, e, wg, _, _, hk0, _⟩ := New_wf ceilLog2 c 0 race hL (by norm_num)
    exact ⟨g, e, hk0, fun x => test_of_covers wg (hcov g hk0 x)⟩

/-- C19 at a concrete input: four bytes, no probes. -/
theorem C19_zero_probe_count_witness :
    (WellFormed { demoFilter with k := 0 } ∧ ({ demoFilter with k := 0 } : Filter).k = 0) ∧
      (∀ x, Filter.Test demoSum128 { demoFilter with k := 0 } x =
        .ok (true, { demoFilter with k := 0 })) ∧
      (∀ x, Filter.Add demoSum128 { demoFilter with k := 0 } x =
        .ok { demoFilter with k := 0, n := (0 + 1) % 2 ^ 64 }) :=
  have h := C19_zero_probe_count demoSum128 { demoFilter with k := 0 } (by decide) rfl
  ⟨⟨by decide, rfl⟩, h.1, h.2.1⟩

/-- C20 (the probe-count mismatch message): with equal `m = 4` and probe
counts `3` and `5`, `MergeInPlace` returns the message
`k's don't match: 4 != 4`, which prints the two `m`, not the message
`k's don't match: 3 != 5` with the two probe counts; with `m = 4` against
`m = 8` the message is `m's don't match: 4 != 8`, also when the probe counts
differ and the argument is concurrent. -/
theorem C20_k_mismatch_message_prints_m :
    demoFilter.MergeInPlace { demoFilter2 with k := 5 } = .ok
        { err := some "k\x27s don\x27t match: 4 != 4", f := demoFilter,
          g := { demoFilter2 with k := 5 } } ∧
      errorfDontMatch "k" demoFilter.m demoFilter2.m ≠ errorfDontMatch "k" 3 5 ∧
      demoFilter.MergeInPlace { demoFilter2 with m := 8, k := 5, concurrent := true } = .ok
        { err := some "m\x27s don\x27t match: 4 != 8", f := demoFilter,
          g := { demoFilter2 with m := 8, k := 5, concurrent := true } } := by
  refine ⟨by rfl, by decide, by rfl⟩

theorem and_255_eq_mod (x : Nat) : x &&& 0xFF = x % 256 :=
  Nat.and_pow_two_sub_one_eq_mod x 8

theorem uint16_bytes (v : Nat) :
    (Uint16ToBytes v).length = 2 ∧
      ∀ j, j < 2 → (Uint16ToBytes v).getD j 0 = (v >>> (8 * j)) &&& 0xFF := by
  refine ⟨rfl, ?_⟩
  intro j hj
  rw [and_255_eq_mod]
  interval_cases j <;> rfl

theorem uint32_bytes (v : Nat) :
    (Uint32ToBytes v).length = 4 ∧
      ∀ j, j < 4 → (Uint32ToBytes v).getD j 0 = (v >>> (8 * j)) &&& 0xFF := by
  refine ⟨rfl, ?_⟩
  intro j hj
  rw [and_255_eq_mod]
  interval_cases j <;> rfl

theorem uint64_bytes (v : Nat) :
    (Uint64ToBytes v).length = 8 ∧
      ∀ j, j < 8 → (Uint64ToBytes v).getD j 0 = (v >>> (8 * j)) &&& 0xFF := by
  refine ⟨rfl, ?_⟩
  intro j hj
  rw [and_255_eq_mod]
  interval_cases j <;> rfl

theorem uint16_decode (v : Nat) (hv : v < 2 ^ 16) : littleEndian (Uint16ToBytes v) = v := by
  simp only [Uint16ToBytes, putUint16, littleEndian, List.foldr, Nat.shiftRight_eq_div_pow]
  omega

theorem uint32_decode (v : Nat) (hv : v < 2 ^ 32) : littleEndian (Uint32ToBytes v) = v := by
  simp only [Uint32ToBytes, putUint32, littleEndian, List.foldr, Nat.shiftRight_eq_div_pow]
  omega

theorem uint64_decode (v : Nat) (hv : v < 2 ^ 64) : littleEndian (Uint64ToBytes v) = v := by
  simp only [Uint64ToBytes, putUint64, littleEndian, List.foldr, Nat.shiftRight_eq_div_pow]
  omega

theorem add_then_test (sum128 : List Nat → Nat × Nat) {f : Filter} (wf : WellFormed f)
    (x : List Nat) : ∃ g, f.Add sum128 x = .ok g ∧ g.Test sum128 x = .ok (true, g) := by
  obtain ⟨g, e, wg, _, cv, _⟩ := Add_grows sum128 wf x
  exact ⟨g, e, test_of_covers wg cv⟩

/-- C15 (the integer codecs are fixed-width little-endian): `Uint16ToBytes`,
`Uint32ToBytes` and `Uint64ToBytes` return exactly 2, 4 and 8 bytes, byte `j`
being `(num >> (8 * j)) & 0xFF`; decoding the bytes least significant first
gives `num` back, so distinct values of one width have distinct encodings;
and on a well-formed filter `AddUintN(v)` followed by `TestUintN(v)` returns
`true`. -/
theorem C15_codecs_little_endian (sum128 : List Nat → Nat × Nat) (f : Filter)
    (wf : WellFormed f) :
    (∀ v, v < 2 ^ 16 →
        (Uint16ToBytes v).length = 2 ∧
        (∀ j, j < 2 → (Uint16ToBytes v).getD j 0 = (v >>> (8 * j)) &&& 0xFF) ∧
        littleEndian (Uint16ToBytes v) = v ∧
        (∀ w, w < 2 ^ 16 → Uint16ToBytes v = Uint16ToBytes w → v = w) ∧
        ∃ g, f.AddUint16 sum128 v = .ok g ∧ g.TestUint16 sum128 v = .ok (true, g)) ∧
      (∀ v, v < 2 ^ 32 →
        (Uint32ToBytes v).length = 4 ∧
        (∀ j, j < 4 → (Uint32ToBytes v).getD j 0 = (v >>> (8 * j)) &&& 0xFF) ∧
        littleEndian (Uint32ToBytes v) = v ∧
        (∀ w, w < 2 ^ 32 → Uint32ToBytes v = Uint32ToBytes w → v = w) ∧
        ∃ g, f.AddUint32 sum128 v = .ok g ∧ g.TestUint32 sum128 v = .ok (true, g)) ∧
      (∀ v, v < 2 ^ 64 →
        (Uint64ToBytes v).length = 8 ∧
        (∀ j, j < 8 → (Uint64ToBytes v).getD j 0 = (v >>> (8 * j)) &&& 0xFF) ∧
        littleEndian (Uint64ToBytes v) = v ∧
        (∀ w, w < 2 ^ 64 → Uint64ToBytes v = Uint64ToBytes w → v = w) ∧
        ∃ g, f.AddUint64 sum128 v = .ok g ∧ g.TestUint64 sum128 v = .ok (true, g)) := by
  refine ⟨?_, ?_, ?_⟩
  · intro v hv
    refine ⟨(uint16_bytes v).1, (uint16_bytes v).2, uint16_decode v hv, ?_,
      add_then_test sum128 wf _⟩
    intro w hw he
    rw [← uint16_decode v hv, ← uint16_decode w hw, he]
  · intro v hv
    refine ⟨(uint32_bytes v).1, (uint32_bytes v).2, uint32_decode v hv, ?_,
      add_then_test sum128 wf _⟩
    intro w hw he
    rw [← uint32_decode v hv, ← uint32_decode w hw, he]
  · intro v hv
    refine ⟨(uint64_bytes v).1, (uint64_bytes v).2, uint64_decode v hv, ?_,
      add_then_test sum128 wf _⟩
    intro w hw he
    rw [← uint64_decode v hv, ← uint64_decode w hw, he]

/-- C15 at a concrete input: the value `258 = 0x0102` as a `uint16`. -/
theorem C15_codecs_little_endian_witness :
    WellFormed demoFilter ∧ Uint16ToBytes 258 = [2, 1] ∧
      littleEndian (Uint16ToBytes 258) = 258 ∧
      ∃ g, demoFilter.AddUint16 demoSum128 258 = .ok g ∧
        g.TestUint16 demoSum128 258 = .ok (true, g) :=
  have h := (C15_codecs_little_endian demoSum128 demoFilter (by decide)).1 258 (by norm_num)
  ⟨by decide, by decide, h.2.2.1, h.2.2.2.2⟩

theorem FalsePositiveRate_real {f : Filter} (wf : WellFormed f) :
    f.FalsePositiveRate realFloat = .ok
      ((1 - Real.exp (-((f.k * f.n % 2 ^ 64 : Nat) : Real) / (f.m : Real))) ^ f.k, f) := by
  simp only [Filter.FalsePositiveRate, acquire_ok wf, bind, Except.bind, pure, Except.pure,
    realFloat, Real.exp_one_rpow, Real.rpow_natCast]

theorem rate_mono (k m p q : Nat) (hpq : p ≤ q) :
    (1 - Real.exp (-(p : Real) / (m : Real))) ^ k ≤
      (1 - Real.exp (-(q : Real) / (m : Real))) ^ k := by
  have hp : (0 : Real) ≤ (p : Real) / (m : Real) := by positivity
  have hle : (p : Real) / (m : Real) ≤ (q : Real) / (m : Real) := by
    apply div_le_div_of_nonneg_right _ (by positivity)
    exact_mod_cast hpq
  have h1 : Real.exp (-(p : Real) / (m : Real)) ≤ 1 := by
    rw [Real.exp_le_one_iff, neg_div]
    linarith
  have h2 : Real.exp (-(q : Real) / (m : Real)) ≤ Real.exp (-(p : Real) / (m : Real)) := by
    rw [Real.exp_le_exp, neg_div, neg_div]
    linarith
  exact pow_le_pow_left₀ (by linarith) (by linarith) k

/-- C13 as amended (false-positive rate ordering): for well-formed filters
with the same `m` and the same `k` and counts `n1 ≤ n2` such that `k * n2`
fits a `uint64`, the rate `(1 - e^(-(k*n)/m))^k`, read over the real numbers,
at `n1` is at most the rate at `n2`. -/
theorem C13_rate_ordering (f1 f2 : Filter) (w1 : WellFormed f1) (w2 : WellFormed f2)
    (hm : f1.m = f2.m) (hk : f1.k = f2.k) (hn : f1.n ≤ f2.n)
    (hfit : f2.k * f2.n < 2 ^ 64) :
    ∃ r1 r2, f1.FalsePositiveRate realFloat = .ok (r1, f1) ∧
      f2.FalsePositiveRate realFloat = .ok (r2, f2) ∧ r1 ≤ r2 := by
  refine ⟨_, _, FalsePositiveRate_real w1, FalsePositiveRate_real w2, ?_⟩
  have hle : f1.k * f1.n ≤ f2.k * f2.n := by
    rw [hk]; exact Nat.mul_le_mul_left _ hn
  rw [Nat.mod_eq_of_lt hfit, Nat.mod_eq_of_lt (lt_of_le_of_lt hle hfit), hm, hk]
  exact rate_mono f2.k f2.m _ _ (hk ▸ hle)

/-- C13 at a concrete input: counts `0` and `5` with `m = 4`, `k = 3`. -/
theorem C13_rate_ordering_witness :
    (WellFormed demoFilter ∧ WellFormed demoFilter2 ∧ demoFilter.m = demoFilter2.m ∧
        demoFilter.k = demoFilter2.k ∧ demoFilter.n ≤ demoFilter2.n ∧
        demoFilter2.k * demoFilter2.n < 2 ^ 64) ∧
      ∃ r1 r2, demoFilter.FalsePositiveRate realFloat = .ok (r1, demoFilter) ∧
        demoFilter2.FalsePositiveRate realFloat = .ok (r2, demoFilter2) ∧ r1 ≤ r2 :=
  ⟨⟨by decide, by decide, rfl, rfl, by decide, by decide⟩,
    C13_rate_ordering demoFilter demoFilter2 (by decide) (by decide) rfl rfl (by decide)
      (by decide)⟩

/-- C13 as stated fails: with `m = 4` and `k = 2`, the count `2 ^ 63` makes the
`uint64` product `k * n` wrap to `0`, so the rate is `0`, below the rate
`(1 - e^(-1/2))^2` at the smaller count `1`. -/
theorem C13_counterexample :
    ∃ r1 r2,
      Filter.FalsePositiveRate realFloat { demoFilter with k := 2, n := 1 } =
        .ok (r1, { demoFilter with k := 2, n := 1 }) ∧
      Filter.FalsePositiveRate realFloat { demoFilter with k := 2, n := 2 ^ 63 } =
        .ok (r2, { demoFilter with k := 2, n := 2 ^ 63 }) ∧
      (1 : Nat) ≤ 2 ^ 63 ∧ r2 = 0 ∧ r2 < r1 := by
  have w1 : WellFormed { demoFilter with k := 2, n := 1 } := by decide
  have w2 : WellFormed { demoFilter with k := 2, n := 2 ^ 63 } := by decide
  refine ⟨_, _, FalsePositiveRate_real w1, FalsePositiveRate_real w2, by norm_num, ?_, ?_⟩
  · have : (2 * 2 ^ 63 % 2 ^ 64 : Nat) = 0 := by norm_num
    simp [demoFilter, this]
  · have h0 : (2 * 2 ^ 63 % 2 ^ 64 : Nat) = 0 := by norm_num
    have h1 : (2 * 1 % 2 ^ 64 : Nat) = 2 := by norm_num
    have hlt : Real.exp (-((2 : Nat) : Real) / ((4 : Nat) : Real)) < 1 := by
      rw [Real.exp_lt_one_iff]
      norm_num
    have hpos : 0 < (1 - Real.exp (-((2 : Nat) : Real) / ((4 : Nat) : Real))) ^ 2 :=
      pow_pos (by linarith) 2
    simp only [demoFilter, h0, h1]
    simpa using hpos

/-- C14 (lock discipline) at a concurrency-enabled filter: `Test` calls
`Lock` and `Unlock`, the exclusive lock, not `RLock` and `RUnlock` as the
read-only `Cap`, `Size` and `FalsePositiveRate` do; `Add`, `AddBatch`, `Reset`
and an accepted `MergeInPlace` call `Lock` and `Unlock`; a rejected
`MergeInPlace` and every operation on a filter that is not concurrent call
nothing. -/
theorem C14_test_takes_exclusive_lock :
    demoConcurrent.lockCalls (Call.test [1]) = [LockCall.Lock, LockCall.Unlock] ∧
      demoConcurrent.lockCalls (Call.test [1]) ≠ [LockCall.RLock, LockCall.RUnlock] ∧
      demoConcurrent.lockCalls Call.cap = [LockCall.RLock, LockCall.RUnlock] ∧
      demoConcurrent.lockCalls Call.size = [LockCall.RLock, LockCall.RUnlock] ∧
      demoConcurrent.lockCalls Call.falsePositiveRate = [LockCall.RLock, LockCall.RUnlock] ∧
      demoConcurrent.lockCalls (Call.add [1]) = [LockCall.Lock, LockCall.Unlock] ∧
      demoConcurrent.lockCalls (Call.addBatch [[1]]) = [LockCall.Lock, LockCall.Unlock] ∧
      demoConcurrent.lockCalls Call.reset = [LockCall.Lock, LockCall.Unlock] ∧
      demoConcurrent.lockCalls (Call.merge demoFilter2) = [LockCall.Lock, LockCall.Unlock] ∧
      demoConcurrent.lockCalls (Call.merge { demoFilter2 with k := 5 }) = [] ∧
      (∀ (f : Filter) (c : Call), f.concurrent = false → f.lockCalls c = []) := by
  refine ⟨rfl, by decide, rfl, rfl, rfl, rfl, rfl, rfl, rfl, rfl, ?_⟩
  intro f c hc
  cases c <;> simp [Filter.lockCalls, Filter.guardCalls, hc]

end BloomFilter
